import Mathlib

/-!
Shallow embedding of the cdb constant-database package (hash function,
record codec, streaming `Writer` with buffered offsets, and the `CDB`
reader with its 256-bucket index, probing `Get` and sequential `Each`).

Byte strings are modelled as `List Nat` (each element a byte value);
32-bit wraparound arithmetic is made explicit with `% 4294967296`.
File contents are the byte list held by the underlying storage; a read
past the end of the file is the I/O error (`none`).
-/

set_option maxRecDepth 8000

namespace Cdb

abbrev Bytes := List Nat

def maxUint32 : Nat := 4294967295

def u32Mod : Nat := 4294967296

def indexSize : Nat := 2048

/-- Initial value `start` of the cdb hash. -/
def start : Nat := 5381

/-- One step of the cdb hash: `v = ((v << 5) + v) ^ b`, on 32-bit values. -/
def hashStep (v b : Nat) : Nat := (((v <<< 5) + v) % u32Mod) ^^^ b

/-- Model of `CDBHashSum32Update` from `hash.go`: fold `hashStep` over the data. -/
def CDBHashSum32Update (data : Bytes) (v : Nat) : Nat := data.foldl hashStep v

/-- Model of `CDBHashSum32` / `cdbHash` from `hash.go`. -/
def cdbHash (data : Bytes) : Nat := CDBHashSum32Update data start

/-- Little-endian 4-byte encoding of a `uint32` value (`binary.LittleEndian.PutUint32`). -/
def u32le (n : Nat) : Bytes :=
  [n % 256, n / 256 % 256, n / 65536 % 256, n / 16777216 % 256]

/-- Decoding of `binary.LittleEndian.Uint32` on (the first four bytes of) a buffer. -/
def decodeU32 (l : Bytes) : Nat :=
  l.getD 0 0 + 256 * l.getD 1 0 + 65536 * l.getD 2 0 + 16777216 * l.getD 3 0

/-- Model of `writeTuple` from `util.go`: two little-endian `uint32`s, eight bytes. -/
def writeTuple (first second : Nat) : Bytes := u32le first ++ u32le second

/-- Model of `ReadAt`: read `size` bytes at absolute `off`; an incomplete read is an error. -/
def readAt (f : Bytes) (off size : Nat) : Option Bytes :=
  if off + size ≤ f.length then some ((f.drop off).take size) else none

/-- Model of `readTuple`: an eight-byte read decoded as two little-endian `uint32`s. -/
def readTuple (f : Bytes) (off : Nat) : Option (Nat × Nat) :=
  (readAt f off 8).map (fun b => (decodeU32 (b.take 4), decodeU32 (b.drop 4)))

/-! ### Writer (`writer.go`, buffered variant) -/

structure entry where
  hash : Nat
  offset : Nat
deriving DecidableEq, Repr

structure table where
  offset : Nat
  length : Nat
deriving DecidableEq, Repr

/-- Writer state: the per-bucket pending entry lists, the buffered record
bytes that follow the 2048-byte header, the tracked `bufferedOffset`, whether
`bufferedWriter` is still non-nil, whether `finalizeOnce` has been consumed,
and the bytes currently on the underlying storage. -/
structure Writer where
  entries : List (List entry)
  data : Bytes
  bufferedOffset : Nat
  bufOk : Bool
  finalized : Bool
  file : Bytes
deriving DecidableEq, Repr

/-- Model of `NewWriter`: reserve the 2048-byte zeroed header. -/
def NewWriter : Writer :=
  { entries := List.replicate 256 []
    data := []
    bufferedOffset := indexSize
    bufOk := true
    finalized := false
    file := List.replicate indexSize 0 }

inductive PutResult where
  | ok
  | errTooMuchData
  /-- Calling `Put` after finalize dereferences the nil `bufferedWriter`. -/
  | crash
deriving DecidableEq, Repr

/-- Model of `Writer.Put`: record the entry (hash, current offset as `uint32`) in its
bucket, then write the length tuple, key and value through the buffered
writer, advance the tracked offset and check the 4&#8239;GiB ceiling.  If the
buffered writer has been cleared by finalize, the entry is still recorded but
the first buffered write faults. -/
def Writer.Put (w : Writer) (key value : Bytes) : Writer × PutResult :=
  let hash := cdbHash key
  let t := hash % 256
  let e : entry := ⟨hash, w.bufferedOffset % u32Mod⟩
  let w1 : Writer := { w with entries := w.entries.set t ((w.entries.getD t []) ++ [e]) }
  if w1.bufOk then
    let w2 : Writer := { w1 with
      data := w1.data ++ writeTuple key.length value.length ++ key ++ value
      bufferedOffset := w1.bufferedOffset + (8 + key.length + value.length) }
    if w2.bufferedOffset > maxUint32 then (w2, .errTooMuchData) else (w2, .ok)
  else (w1, .crash)

inductive WErr where
  | tooMuchData
deriving DecidableEq, Repr

/-- One bucket of `Writer.finalize`: write each pending entry's
`(hash, offset)` tuple, advancing and checking the offset after each. -/
def writeBucket : Nat → List entry → Except WErr (Bytes × Nat)
  | off, [] => .ok ([], off)
  | off, e :: rest =>
    let off1 := off + 8
    if off1 > maxUint32 then .error .tooMuchData
    else
      match writeBucket off1 rest with
      | .error er => .error er
      | .ok (bs, offEnd) => .ok (writeTuple e.hash e.offset ++ bs, offEnd)

/-- The bucket loop of `Writer.finalize`: for each bucket record
`(offset, length)` as `uint32`s, then write its entries. -/
def writeTables : Nat → List (List entry) → Except WErr (List table × Bytes × Nat)
  | off, [] => .ok ([], [], off)
  | off, es :: rest =>
    let t : table := ⟨off % u32Mod, es.length % u32Mod⟩
    match writeBucket off es with
    | .error er => .error er
    | .ok (bs, off1) =>
      match writeTables off1 rest with
      | .error er => .error er
      | .ok (ts, bs1, offEnd) => .ok (t :: ts, bs ++ bs1, offEnd)

/-- Header encoding written back at offset 0 by `Writer.finalize`. -/
def encodeIndex (ts : List table) : Bytes :=
  (ts.map (fun t => writeTuple t.offset t.length)).flatten

/-- Model of `Writer.finalize`: write the 256 bucket tables after the data region,
flush, then overwrite the header with the completed index.  On success the
resulting file is header ++ records ++ tables. -/
def Writer.finalize (w : Writer) : Except WErr (List table × Bytes) :=
  match writeTables w.bufferedOffset w.entries with
  | .error er => .error er
  | .ok (ts, tb, _) => .ok (ts, encodeIndex ts ++ w.data ++ tb)

/-! ### Reader (`cdb.go`) -/

/-- An open CDB database: the underlying storage and the in-memory index. -/
structure CDB where
  file : Bytes
  index : List table
deriving DecidableEq, Repr

def zeroIndex : List table := List.replicate 256 ⟨0, 0⟩

/-- Model of `Writer.Close`: run finalize through `finalizeOnce`. -/
def Writer.Close (w : Writer) : Writer × Option WErr :=
  if w.finalized then (w, none)
  else
    match w.finalize with
    | .error er => ({ w with finalized := true }, some er)
    | .ok (_, out) =>
        ({ w with finalized := true, bufOk := false, file := out }, none)

/-- Model of `Writer.Freeze`: run finalize through `finalizeOnce`, then wrap the
storage and the local `index` variable in a `CDB`.  When `finalizeOnce` was
already consumed the closure is skipped, so the local index keeps its zero
value. -/
def Writer.Freeze (w : Writer) : Writer × Except WErr CDB :=
  if w.finalized then (w, .ok ⟨w.file, zeroIndex⟩)
  else
    match w.finalize with
    | .error er => ({ w with finalized := true }, .error er)
    | .ok (idx, out) =>
        ({ w with finalized := true, bufOk := false, file := out }, .ok ⟨out, idx⟩)

/-- Decoding loop of `readIndex`: 256 little-endian `(offset, length)` pairs. -/
def decodeIndex (buf : Bytes) : List table :=
  (List.range 256).map
    (fun i => ⟨decodeU32 ((buf.drop (i * 8)).take 4), decodeU32 ((buf.drop (i * 8 + 4)).take 4)⟩)

/-- Model of `New` / `readIndex`: read the 2048-byte header and decode the index. -/
def New (f : Bytes) : Option CDB :=
  (readAt f 0 indexSize).map (fun buf => ⟨f, decodeIndex buf⟩)

/-- Model of `getValueAt`: decode the record's length tuple, reject on key length,
read key ++ value, reject unless the stored key equals the expected key.
Outer `none` is an I/O error; `some none` means "not a match". -/
def getValueAt (f : Bytes) (offset : Nat) (expectedKey : Bytes) : Option (Option Bytes) :=
  match readTuple f offset with
  | none => none
  | some (keyLength, valueLength) =>
    if keyLength ≠ expectedKey.length then some none
    else
      match readAt f ((offset + 8) % u32Mod) ((keyLength + valueLength) % u32Mod) with
      | none => none
      | some buf =>
        if buf.take keyLength ≠ expectedKey then some none
        else some (some (buf.drop keyLength))

/-- Probe loop of `CDB.Get`.  Here `fuel` counts the slots that may still be
visited before `slot` cycles back to `startingSlot`; starting with
`fuel = tbl.length` the zero-fuel branch is unreachable, because the loop
exits via the `slot = startingSlot` check after exactly `tbl.length` steps. -/
def probe (f key : Bytes) (tbl : table) (hash startingSlot : Nat) :
    Nat → Nat → Option (Option Bytes)
  | _, 0 => some none
  | slot, fuel + 1 =>
    match readTuple f ((tbl.offset + 8 * slot) % u32Mod) with
    | none => none
    | some (slotHash, offset) =>
      if slotHash = 0 then some none
      else if slotHash = hash then
        match getValueAt f offset key with
        | none => none
        | some (some value) => some (some value)
        | some none =>
          let slot1 := (slot + 1) % tbl.length
          if slot1 = startingSlot then some none
          else probe f key tbl hash startingSlot slot1 fuel
      else
        let slot1 := (slot + 1) % tbl.length
        if slot1 = startingSlot then some none
        else probe f key tbl hash startingSlot slot1 fuel

/-- Model of `CDB.Get`: hash the key, select the bucket, return "not found" on an
empty bucket, otherwise probe from the hash-derived start slot. -/
def CDB.Get (cdb : CDB) (key : Bytes) : Option (Option Bytes) :=
  let hash := cdbHash key
  let tbl := cdb.index.getD (hash % 256) ⟨0, 0⟩
  if tbl.length = 0 then some none
  else
    let startingSlot := (hash >>> 8) % tbl.length
    probe cdb.file key tbl hash startingSlot startingSlot tbl.length

inductive EachError (ε : Type) where
  | io
  | visit (e : ε)
deriving DecidableEq

/-- Scan loop of `CDB.Each`.  Positions are tracked as exact naturals:
the `uint32` wraparound of the Go counter cannot fire, because the loop only
advances after a successful read, which bounds the next position by the file
length. -/
def eachLoop (f : Bytes) {ε : Type} (visit : Bytes → Bytes → Except ε Unit)
    (endPos : Nat) (pos : Nat) : Except (EachError ε) Unit :=
  if h : pos < endPos then
    match readTuple f pos with
    | none => .error .io
    | some (keyLength, valueLength) =>
      match readAt f (pos + 8) (keyLength + valueLength) with
      | none => .error .io
      | some buf =>
        match visit (buf.take keyLength) (buf.drop keyLength) with
        | .error e => .error (.visit e)
        | .ok _ => eachLoop f visit endPos (pos + (8 + keyLength + valueLength))
  else .ok ()
termination_by endPos - pos
decreasing_by omega

/-- Model of `CDB.Each`: walk the records from the end of the header to the offset of
bucket 0's table. -/
def CDB.Each (cdb : CDB) {ε : Type} (visit : Bytes → Bytes → Except ε Unit) :
    Except (EachError ε) Unit :=
  eachLoop cdb.file visit (cdb.index.getD 0 ⟨0, 0⟩).offset indexSize

/-! ### Building a store through the public API -/

/-- Apply `Writer.Put` for each pair in order, starting from `NewWriter`. -/
def buildWriter (puts : List (Bytes × Bytes)) : Writer :=
  puts.foldl (fun w kv => (w.Put kv.1 kv.2).1) NewWriter

/-- Put every pair, then `Freeze`. -/
def freezeStore (puts : List (Bytes × Bytes)) : Except WErr CDB :=
  ((buildWriter puts).Freeze).2

/-! ### Closed forms of the file layout produced by the writer -/

/-- Bytes a record occupies: length tuple, key, value. -/
def recSize (kv : Bytes × Bytes) : Nat := 8 + kv.1.length + kv.2.length

/-- On-disk encoding of one record. -/
def encRecord (kv : Bytes × Bytes) : Bytes :=
  writeTuple kv.1.length kv.2.length ++ kv.1 ++ kv.2

/-- The data region: records in `Put` order. -/
def dataBytes (puts : List (Bytes × Bytes)) : Bytes := (puts.map encRecord).flatten

/-- The pending entries generated by a sequence of `Put`s starting at `off`,
in `Put` order. -/
def entriesFrom (off : Nat) : List (Bytes × Bytes) → List entry
  | [] => []
  | kv :: rest => ⟨cdbHash kv.1, off % u32Mod⟩ :: entriesFrom (off + recSize kv) rest

/-- The 256 per-bucket pending entry lists. -/
def bucketsOf (puts : List (Bytes × Bytes)) : List (List entry) :=
  (List.range 256).map
    (fun b => (entriesFrom indexSize puts).filter (fun e => e.hash % 256 == b))

/-- Eight bytes of one table slot. -/
def entryBytes (e : entry) : Bytes := writeTuple e.hash e.offset

/-- One bucket's on-disk table. -/
def bucketBytes (es : List entry) : Bytes := (es.map entryBytes).flatten

/-- The whole table region, buckets in index order. -/
def tableBytesOf (ls : List (List entry)) : Bytes := (ls.map bucketBytes).flatten

/-- The index produced by the finalize loop starting at `off`. -/
def tablesOf : Nat → List (List entry) → List table
  | _, [] => []
  | off, es :: rest => ⟨off % u32Mod, es.length % u32Mod⟩ :: tablesOf (off + 8 * es.length) rest

/-- Number of table entries in the buckets before bucket `b`. -/
def prefixLen (ls : List (List entry)) (b : Nat) : Nat := ((ls.take b).map List.length).sum

/-- The end of the data region: header plus all records. -/
def dataEnd (puts : List (Bytes × Bytes)) : Nat := indexSize + (dataBytes puts).length

/-- The finalized index for a list of `Put`s. -/
def idxOf (puts : List (Bytes × Bytes)) : List table :=
  tablesOf (dataEnd puts) (bucketsOf puts)

/-- The finalized file bytes for a list of `Put`s. -/
def fileOf (puts : List (Bytes × Bytes)) : Bytes :=
  encodeIndex (idxOf puts) ++ dataBytes puts ++ tableBytesOf (bucketsOf puts)

/-- Store handle returned by `Freeze` after a list of `Put`s. -/
def storeOf (puts : List (Bytes × Bytes)) : CDB := ⟨fileOf puts, idxOf puts⟩

/-- The inputs are byte strings and the finalized file fits under the 4 GiB
ceiling, i.e. every `Put` and the finalize both succeed. -/
def PutsOK (puts : List (Bytes × Bytes)) : Prop :=
  (∀ kv ∈ puts, ∀ b ∈ kv.1, b < 256) ∧ dataEnd puts + 8 * puts.length ≤ maxUint32

/-- Total number of pending entries across a writer's buckets. -/
def totalEntries (w : Writer) : Nat := (w.entries.map List.length).sum

/-! ### Spec-modelled probe -/

/-- Modelled from the spec: the probe loop of §4.5, which scans from the
start slot and terminates "not found" only when the slot index returns to
the start slot; unlike the code it has no stored-hash-0 early exit, since
bucket tables contain no empty or sentinel slots. -/
def specProbe (f key : Bytes) (tbl : table) (hash startingSlot : Nat) :
    Nat → Nat → Option (Option Bytes)
  | _, 0 => some none
  | slot, fuel + 1 =>
    match readTuple f ((tbl.offset + 8 * slot) % u32Mod) with
    | none => none
    | some (slotHash, offset) =>
      if slotHash = hash then
        match getValueAt f offset key with
        | none => none
        | some (some value) => some (some value)
        | some none =>
          let slot1 := (slot + 1) % tbl.length
          if slot1 = startingSlot then some none
          else specProbe f key tbl hash startingSlot slot1 fuel
      else
        let slot1 := (slot + 1) % tbl.length
        if slot1 = startingSlot then some none
        else specProbe f key tbl hash startingSlot slot1 fuel

/-- Modelled from the spec: `Get` of §4.5, identical to `CDB.Get` except
that its probe has no stored-hash-0 early exit. -/
def CDB.specGet (cdb : CDB) (key : Bytes) : Option (Option Bytes) :=
  let hash := cdbHash key
  let tbl := cdb.index.getD (hash % 256) ⟨0, 0⟩
  if tbl.length = 0 then some none
  else
    let startingSlot := (hash >>> 8) % tbl.length
    specProbe cdb.file key tbl hash startingSlot startingSlot tbl.length

/-- Reference behaviour of `Each`: invoke the visitor once per pair, in
order, stopping at and surfacing the first visitor error. -/
def visitFold {ε : Type} (visit : Bytes → Bytes → Except ε Unit) :
    List (Bytes × Bytes) → Except (EachError ε) Unit
  | [] => .ok ()
  | kv :: rest =>
    match visit kv.1 kv.2 with
    | .error e => .error (.visit e)
    | .ok _ => visitFold visit rest

/-- A finishing operation on the writer. -/
inductive FinOp where
  | close
  | freeze
deriving DecidableEq, Repr

/-- The writer state after one finishing operation. -/
def finStep (w : Writer) : FinOp → Writer
  | .close => (w.Close).1
  | .freeze => (w.Freeze).1

/-- A five-byte key whose cdb hash is zero. -/
def zKey : Bytes := [138, 160, 32, 70, 233]

/-! ## Byte-level lemmas -/

theorem length_u32le (n : Nat) : (u32le n).length = 4 := rfl

theorem length_writeTuple (a b : Nat) : (writeTuple a b).length = 8 := rfl

theorem length_encodeIndex (ts : List table) : (encodeIndex ts).length = 8 * ts.length := by
  unfold encodeIndex
  rw [List.length_flatten]
  induction ts with
  | nil => rfl
  | cons t ts ih =>
      simp only [List.map_cons, List.sum_cons, ih, length_writeTuple, List.length_cons]
      ring

theorem length_bucketBytes (es : List entry) : (bucketBytes es).length = 8 * es.length := by
  unfold bucketBytes
  rw [List.length_flatten]
  induction es with
  | nil => rfl
  | cons e es ih =>
      simp only [List.map_cons, List.sum_cons, ih, entryBytes, length_writeTuple,
        List.length_cons]
      ring

theorem length_tableBytesOf (ls : List (List entry)) :
    (tableBytesOf ls).length = 8 * ((ls.map List.length).sum) := by
  unfold tableBytesOf
  rw [List.length_flatten]
  induction ls with
  | nil => rfl
  | cons es ls ih =>
      simp only [List.map_cons, List.sum_cons, ih, length_bucketBytes]
      ring

theorem length_encRecord (kv : Bytes × Bytes) : (encRecord kv).length = recSize kv := by
  simp [encRecord, recSize, writeTuple, u32le]; omega

theorem length_dataBytes (puts : List (Bytes × Bytes)) :
    (dataBytes puts).length = (puts.map recSize).sum := by
  unfold dataBytes
  rw [List.length_flatten]
  induction puts with
  | nil => rfl
  | cons kv puts ih => simp only [List.map_cons, List.sum_cons, ih, length_encRecord]

theorem length_tablesOf (off : Nat) (ls : List (List entry)) :
    (tablesOf off ls).length = ls.length := by
  induction ls generalizing off with
  | nil => rfl
  | cons es ls ih => simp [tablesOf, ih]

theorem decodeU32_u32le (n : Nat) : decodeU32 (u32le n) = n % u32Mod := by
  simp only [decodeU32, u32le, u32Mod, List.getD_cons_zero, List.getD_cons_succ]
  omega

theorem readAt_of_le (f : Bytes) (off size : Nat) (h : off + size ≤ f.length) :
    readAt f off size = some ((f.drop off).take size) := by
  unfold readAt
  rw [if_pos h]

theorem readAt_append (a b : Bytes) (off size : Nat) :
    readAt (a ++ b) (a.length + off) size = readAt b off size := by
  unfold readAt
  rw [List.drop_append]
  simp only [List.length_append]
  by_cases h : off + size ≤ b.length
  · rw [if_pos h, if_pos (by omega)]
  · rw [if_neg h, if_neg (by omega)]

theorem readAt_append0 (a b : Bytes) (size : Nat) :
    readAt (a ++ b) a.length size = readAt b 0 size := by
  have h := readAt_append a b 0 size
  simpa using h

theorem readAt_block (blk rest : Bytes) (size : Nat) (h : blk.length = size) :
    readAt (blk ++ rest) 0 size = some blk := by
  subst h
  rw [readAt_of_le _ _ _ (by simp)]
  simp [List.take_left]

theorem readTuple_block (x y : Nat) (rest : Bytes) :
    readTuple (writeTuple x y ++ rest) 0 = some (x % u32Mod, y % u32Mod) := by
  unfold readTuple
  rw [readAt_block _ _ 8 (length_writeTuple x y)]
  have hw : writeTuple x y = u32le x ++ u32le y := rfl
  have ht : (writeTuple x y).take 4 = u32le x := by
    rw [hw]
    simpa [length_u32le] using List.take_left (u32le x) (u32le y)
  have hd : (writeTuple x y).drop 4 = u32le y := by
    rw [hw]
    simpa [length_u32le] using List.drop_left (u32le x) (u32le y)
  simp [ht, hd, decodeU32_u32le]

theorem readTuple_at (pre : Bytes) (x y : Nat) (rest : Bytes) :
    readTuple (pre ++ (writeTuple x y ++ rest)) pre.length = some (x % u32Mod, y % u32Mod) := by
  have h := readAt_append pre (writeTuple x y ++ rest) 0 8
  unfold readTuple
  rw [show pre.length = pre.length + 0 by omega, h]
  have := readTuple_block x y rest
  unfold readTuple at this
  exact this

/-! ## Hash lemmas -/

theorem hashStep_lt (v b : Nat) (hb : b < u32Mod) : hashStep v b < u32Mod := by
  have h1 : (((v <<< 5) + v) % u32Mod) < u32Mod := Nat.mod_lt _ (by norm_num [u32Mod])
  have h2 : u32Mod = 2 ^ 32 := by norm_num [u32Mod]
  rw [h2] at h1 hb ⊢
  exact Nat.xor_lt_two_pow h1 hb

theorem CDBHashSum32Update_lt (data : Bytes) (hd : ∀ b ∈ data, b < 256) (v : Nat) :
    v < u32Mod → CDBHashSum32Update data v < u32Mod := by
  induction data generalizing v with
  | nil => intro hv; simpa [CDBHashSum32Update] using hv
  | cons b data ih =>
      intro _
      have hb : b < u32Mod := by
        have h256 := hd b (by simp)
        have hu : u32Mod = 4294967296 := rfl
        omega
      have hrest : ∀ x ∈ data, x < 256 := fun x hx => hd x (by simp [hx])
      simpa [CDBHashSum32Update] using ih hrest (hashStep v b) (hashStep_lt v b hb)

theorem cdbHash_lt (data : Bytes) (hd : ∀ b ∈ data, b < 256) : cdbHash data < u32Mod :=
  CDBHashSum32Update_lt data hd start (by decide)

/-! ## List access helpers -/

theorem getD_set_self {α : Type} (l : List α) (i : Nat) (x : α) (d : α) (h : i < l.length) :
    (l.set i x).getD i d = x := by
  rw [List.getD_eq_getElem?_getD, List.getElem?_set, if_pos rfl, if_pos h]
  rfl

theorem getD_set_ne {α : Type} (l : List α) (i j : Nat) (x : α) (d : α) (h : i ≠ j) :
    (l.set i x).getD j d = l.getD j d := by
  rw [List.getD_eq_getElem?_getD, List.getElem?_set, if_neg h, ← List.getD_eq_getElem?_getD]

theorem getD_range_map {α : Type} (f : Nat → α) (n i : Nat) (d : α) (h : i < n) :
    (((List.range n).map f).getD i d) = f i := by
  rw [List.getD_eq_getElem?_getD, List.getElem?_map, List.getElem?_range h]
  rfl

theorem getD_replicate_lt {α : Type} (n i : Nat) (x d : α) (h : i < n) :
    ((List.replicate n x).getD i d) = x := by
  rw [List.getD_eq_getElem?_getD, List.getElem?_replicate, if_pos h]
  rfl

theorem getD_lt_mem {α : Type} (l : List α) (i : Nat) (d : α) (h : i < l.length) :
    l.getD i d ∈ l := by
  rw [List.getD_eq_getElem?_getD, List.getElem?_eq_getElem h]
  exact List.getElem_mem h

/-! ## Writer build characterization -/

theorem Put_state (w : Writer) (k v : Bytes) (h : w.bufOk = true) :
    (w.Put k v).1 =
      { w with
        entries := w.entries.set (cdbHash k % 256)
          ((w.entries.getD (cdbHash k % 256) []) ++ [⟨cdbHash k, w.bufferedOffset % u32Mod⟩])
        data := w.data ++ encRecord (k, v)
        bufferedOffset := w.bufferedOffset + recSize (k, v) } := by
  unfold Writer.Put
  simp only [h, if_true, encRecord, recSize]
  split
  · simp [List.append_assoc, writeTuple]
  · simp [List.append_assoc, writeTuple]

theorem build_go (puts : List (Bytes × Bytes)) :
    ∀ w : Writer, w.bufOk = true → w.entries.length = 256 →
    let w1 := puts.foldl (fun w kv => (w.Put kv.1 kv.2).1) w
    w1.bufOk = true ∧ w1.finalized = w.finalized ∧ w1.file = w.file ∧
    w1.entries.length = 256 ∧
    w1.bufferedOffset = w.bufferedOffset + (puts.map recSize).sum ∧
    w1.data = w.data ++ dataBytes puts ∧
    ∀ b : Nat, b < 256 →
      w1.entries.getD b [] =
        w.entries.getD b [] ++
          (entriesFrom w.bufferedOffset puts).filter (fun e => e.hash % 256 == b) := by
  induction puts with
  | nil =>
      intro w hbuf hlen
      refine ⟨hbuf, rfl, rfl, hlen, by simp, by simp [dataBytes], ?_⟩
      intro b _
      simp [entriesFrom]
  | cons kv rest ih =>
      intro w hbuf hlen
      have hstep := Put_state w kv.1 kv.2 hbuf
      set t := cdbHash kv.1 % 256 with ht
      set e : entry := ⟨cdbHash kv.1, w.bufferedOffset % u32Mod⟩ with he
      set w' : Writer :=
        { w with
          entries := w.entries.set t ((w.entries.getD t []) ++ [e])
          data := w.data ++ encRecord kv
          bufferedOffset := w.bufferedOffset + recSize kv } with hw'
      have hfold : (kv :: rest).foldl (fun w kv => (w.Put kv.1 kv.2).1) w =
          rest.foldl (fun w kv => (w.Put kv.1 kv.2).1) w' := by
        simp only [List.foldl_cons]
        rw [hstep]
      have hw'buf : w'.bufOk = true := hbuf
      have hw'len : w'.entries.length = 256 := by
        simp [hw', List.length_set, hlen]
      have hrest := ih w' hw'buf hw'len
      simp only [hfold]
      refine ⟨hrest.1, ?_, ?_, hrest.2.2.2.1, ?_, ?_, ?_⟩
      · rw [hrest.2.1]
      · rw [hrest.2.2.1]
      · rw [hrest.2.2.2.2.1]
        show w.bufferedOffset + recSize kv + (rest.map recSize).sum = _
        simp [List.sum_cons]
        try omega
      · rw [hrest.2.2.2.2.2.1]
        show w.data ++ encRecord kv ++ dataBytes rest = w.data ++ dataBytes (kv :: rest)
        simp [dataBytes, List.append_assoc]
      · intro b hb
        have hmain := hrest.2.2.2.2.2.2 b hb
        rw [hmain]
        have hoff : w'.bufferedOffset = w.bufferedOffset + recSize kv := rfl
        have hef : entriesFrom w.bufferedOffset (kv :: rest) =
            e :: entriesFrom (w.bufferedOffset + recSize kv) rest := rfl
        rw [hef]
        by_cases hbt : t = b
        · subst hbt
          have h1 : w'.entries.getD t [] = w.entries.getD t [] ++ [e] := by
            simp only [hw']
            exact getD_set_self _ _ _ _ (by rw [hlen]; exact hb)
          have h2 : (e :: entriesFrom (w.bufferedOffset + recSize kv) rest).filter
              (fun x => x.hash % 256 == t) =
              e :: (entriesFrom (w.bufferedOffset + recSize kv) rest).filter
                (fun x => x.hash % 256 == t) := by
            rw [List.filter_cons_of_pos]
            simp [he, ht]
          rw [h1, h2, hoff]
          simp [List.append_assoc]
        · have h1 : w'.entries.getD b [] = w.entries.getD b [] := by
            simp only [hw']
            exact getD_set_ne _ _ _ _ _ hbt
          have h2 : (e :: entriesFrom (w.bufferedOffset + recSize kv) rest).filter
              (fun x => x.hash % 256 == b) =
              (entriesFrom (w.bufferedOffset + recSize kv) rest).filter
                (fun x => x.hash % 256 == b) := by
            rw [List.filter_cons_of_neg]
            simp [he, ht]
            exact fun hcontra => hbt (by rw [ht, hcontra])
          rw [h1, h2, hoff]

theorem length_entriesFrom (puts : List (Bytes × Bytes)) :
    ∀ off, (entriesFrom off puts).length = puts.length := by
  induction puts with
  | nil => intro off; rfl
  | cons kv rest ih => intro off; simp [entriesFrom, ih]

theorem sum_map_addf {α : Type} (l : List α) (f g : α → Nat) :
    (l.map (fun x => f x + g x)).sum = (l.map f).sum + (l.map g).sum := by
  induction l with
  | nil => simp
  | cons a l ih => simp [ih]; omega

theorem sum_map_zerof {α : Type} (l : List α) : (l.map (fun _ => (0 : Nat))).sum = 0 := by
  induction l with
  | nil => rfl
  | cons a l ih => simpa using ih

theorem delta_sum (n k : Nat) (h : k < n) :
    ((List.range n).map (fun b => if k = b then 1 else 0)).sum = 1 := by
  induction n with
  | zero => omega
  | succ n ih =>
      rw [List.range_succ, List.map_append, List.sum_append]
      by_cases hk : k < n
      · rw [ih hk]
        have hne : ¬(k = n) := by omega
        simp [hne]
      · have hkn : k = n := by omega
        subst hkn
        have hz : ((List.range k).map (fun b => if k = b then 1 else 0)).sum = 0 := by
          have hall : ∀ b ∈ List.range k, (if k = b then 1 else 0) = (fun _ => (0 : Nat)) b := by
            intro b hb
            have hbk : b < k := List.mem_range.mp hb
            have hne : ¬(k = b) := by omega
            simp [hne]
          rw [List.map_congr_left hall, sum_map_zerof]
        simp [hz]

theorem bucket_partition (l : List entry) :
    ((List.range 256).map (fun b => (l.filter (fun e => e.hash % 256 == b)).length)).sum
      = l.length := by
  induction l with
  | nil =>
      have hall : ∀ b ∈ List.range 256,
          ((List.filter (fun e => e.hash % 256 == b) ([] : List entry)).length) =
            (fun _ => (0 : Nat)) b := by
        intro b _
        rfl
      rw [List.map_congr_left hall, sum_map_zerof]
      rfl
  | cons e t ih =>
      have hsplit : ∀ b ∈ List.range 256,
          ((e :: t).filter (fun x => x.hash % 256 == b)).length =
            (fun b => (if e.hash % 256 = b then 1 else 0) +
              (t.filter (fun x => x.hash % 256 == b)).length) b := by
        intro b _
        show ((e :: t).filter (fun x => x.hash % 256 == b)).length =
          (if e.hash % 256 = b then 1 else 0) +
            (t.filter (fun x => x.hash % 256 == b)).length
        rw [List.filter_cons]
        by_cases hc : e.hash % 256 = b
        · rw [if_pos (by simpa using hc), if_pos hc, List.length_cons]
          omega
        · rw [if_neg (by simpa using hc), if_neg hc]
          omega
      rw [List.map_congr_left hsplit, sum_map_addf, ih,
        delta_sum 256 (e.hash % 256) (Nat.mod_lt _ (by norm_num))]
      rw [List.length_cons]
      omega

theorem length_bucketsOf (puts : List (Bytes × Bytes)) : (bucketsOf puts).length = 256 := by
  simp [bucketsOf]

theorem sum_lengths_bucketsOf (puts : List (Bytes × Bytes)) :
    (((bucketsOf puts).map List.length).sum) = puts.length := by
  unfold bucketsOf
  rw [List.map_map]
  have := bucket_partition (entriesFrom indexSize puts)
  rw [length_entriesFrom] at this
  simpa using this

/-! ## `buildWriter` facts -/

theorem buildWriter_spec (puts : List (Bytes × Bytes)) :
    (buildWriter puts).bufOk = true ∧ (buildWriter puts).finalized = false ∧
    (buildWriter puts).file = List.replicate indexSize 0 ∧
    (buildWriter puts).bufferedOffset = dataEnd puts ∧
    (buildWriter puts).data = dataBytes puts ∧
    (buildWriter puts).entries = bucketsOf puts := by
  have hlen : (NewWriter.entries).length = 256 := by
    rw [show NewWriter.entries = List.replicate 256 [] from rfl, List.length_replicate]
  have h := build_go puts NewWriter rfl hlen
  unfold buildWriter
  refine ⟨h.1, h.2.1, h.2.2.1, ?_, ?_, ?_⟩
  · rw [h.2.2.2.2.1]
    show indexSize + (puts.map recSize).sum = dataEnd puts
    unfold dataEnd
    rw [length_dataBytes]
  · rw [h.2.2.2.2.2.1]
    exact List.nil_append (dataBytes puts)
  · apply List.ext_getElem
    · rw [h.2.2.2.1, length_bucketsOf]
    · intro n h1 h2
      have hn : n < 256 := by rw [h.2.2.2.1] at h1; exact h1
      have hNW : NewWriter.entries.getD n [] = [] := by
        rw [show NewWriter.entries = List.replicate 256 [] from rfl]
        exact getD_replicate_lt 256 n [] [] hn
      rw [← List.getD_eq_getElem _ [] h1, ← List.getD_eq_getElem _ [] h2,
        h.2.2.2.2.2.2 n hn, hNW, List.nil_append]
      show _ = (bucketsOf puts).getD n []
      unfold bucketsOf
      rw [getD_range_map _ 256 n [] hn]
      rfl

/-! ## Finalize closed forms -/

theorem writeBucket_ok (es : List entry) :
    ∀ off, off + 8 * es.length ≤ maxUint32 →
      writeBucket off es = .ok (bucketBytes es, off + 8 * es.length) := by
  induction es with
  | nil => intro off h; simp [writeBucket, bucketBytes]
  | cons e es ih =>
      intro off h
      have hlen : (e :: es).length = es.length + 1 := rfl
      have h8 : off + 8 + 8 * es.length ≤ maxUint32 := by rw [hlen] at h; omega
      unfold writeBucket
      rw [if_neg (by omega)]
      rw [ih (off + 8) h8]
      have : bucketBytes (e :: es) = entryBytes e ++ bucketBytes es := by
        simp [bucketBytes]
      rw [this]
      have : off + 8 + 8 * es.length = off + 8 * (e :: es).length := by
        rw [hlen]; ring
      rw [this]
      rfl

theorem writeBucket_err (es : List entry) :
    ∀ off, off ≤ maxUint32 → off + 8 * es.length > maxUint32 →
      writeBucket off es = .error .tooMuchData := by
  induction es with
  | nil => intro off h1 h2; simp at h2; omega
  | cons e es ih =>
      intro off h1 h2
      unfold writeBucket
      by_cases hc : off + 8 > maxUint32
      · rw [if_pos hc]
      · rw [if_neg hc]
        have hlen : (e :: es).length = es.length + 1 := rfl
        rw [ih (off + 8) (by omega) (by rw [hlen] at h2; omega)]

theorem writeTables_ok (ls : List (List entry)) :
    ∀ off, off + 8 * ((ls.map List.length).sum) ≤ maxUint32 →
      writeTables off ls =
        .ok (tablesOf off ls, tableBytesOf ls, off + 8 * ((ls.map List.length).sum)) := by
  induction ls with
  | nil => intro off h; simp [writeTables, tablesOf, tableBytesOf]
  | cons es ls ih =>
      intro off h
      have hsum : ((es :: ls).map List.length).sum = es.length + (ls.map List.length).sum := by
        simp
      rw [hsum] at h
      unfold writeTables
      rw [writeBucket_ok es off (by omega)]
      dsimp only
      rw [ih (off + 8 * es.length) (by omega)]
      have h1 : tableBytesOf (es :: ls) = bucketBytes es ++ tableBytesOf ls := by
        simp [tableBytesOf]
      have h2 : tablesOf off (es :: ls) =
          ⟨off % u32Mod, es.length % u32Mod⟩ :: tablesOf (off + 8 * es.length) ls := rfl
      dsimp only
      rw [h1, h2, hsum]
      have h3 : off + 8 * es.length + 8 * (ls.map List.length).sum =
          off + 8 * (es.length + (ls.map List.length).sum) := by ring
      rw [h3]

theorem writeTables_err (ls : List (List entry)) :
    ∀ off, off ≤ maxUint32 → off + 8 * ((ls.map List.length).sum) > maxUint32 →
      writeTables off ls = .error .tooMuchData := by
  induction ls with
  | nil => intro off h1 h2; simp at h2; omega
  | cons es ls ih =>
      intro off h1 h2
      have hsum : ((es :: ls).map List.length).sum = es.length + (ls.map List.length).sum := by
        simp
      rw [hsum] at h2
      unfold writeTables
      by_cases hc : off + 8 * es.length > maxUint32
      · rw [writeBucket_err es off h1 hc]
      · rw [writeBucket_ok es off (by omega)]
        dsimp only
        rw [ih (off + 8 * es.length) (by omega) (by omega)]

theorem buildWriter_finalize (puts : List (Bytes × Bytes)) (h : PutsOK puts) :
    (buildWriter puts).finalize = .ok (idxOf puts, fileOf puts) := by
  obtain ⟨hb, hf, hfile, hoff, hdata, hent⟩ := buildWriter_spec puts
  unfold Writer.finalize
  rw [hoff, hent]
  have hbound : dataEnd puts + 8 * (((bucketsOf puts).map List.length).sum) ≤ maxUint32 := by
    rw [sum_lengths_bucketsOf]
    exact h.2
  rw [writeTables_ok (bucketsOf puts) (dataEnd puts) hbound]
  rw [hdata]
  rfl

theorem buildWriter_Freeze (puts : List (Bytes × Bytes)) (h : PutsOK puts) :
    (buildWriter puts).Freeze =
      ({ buildWriter puts with finalized := true, bufOk := false, file := fileOf puts },
        .ok (storeOf puts)) := by
  obtain ⟨hb, hf, hfile, hoff, hdata, hent⟩ := buildWriter_spec puts
  unfold Writer.Freeze
  rw [hf]
  simp only [Bool.false_eq_true, if_false]
  rw [buildWriter_finalize puts h]
  rfl

theorem freezeStore_ok (puts : List (Bytes × Bytes)) (h : PutsOK puts) :
    freezeStore puts = .ok (storeOf puts) := by
  unfold freezeStore
  rw [buildWriter_Freeze puts h]

theorem buildWriter_Close (puts : List (Bytes × Bytes)) (h : PutsOK puts) :
    (buildWriter puts).Close =
      ({ buildWriter puts with finalized := true, bufOk := false, file := fileOf puts },
        none) := by
  obtain ⟨hb, hf, hfile, hoff, hdata, hent⟩ := buildWriter_spec puts
  unfold Writer.Close
  rw [hf]
  simp only [Bool.false_eq_true, if_false]
  rw [buildWriter_finalize puts h]

/-! ## File layout lemmas -/

theorem length_idxOf (puts : List (Bytes × Bytes)) : (idxOf puts).length = 256 := by
  unfold idxOf
  rw [length_tablesOf, length_bucketsOf]

theorem length_header (puts : List (Bytes × Bytes)) :
    (encodeIndex (idxOf puts)).length = indexSize := by
  rw [length_encodeIndex, length_idxOf]
  rfl

theorem length_fileOf (puts : List (Bytes × Bytes)) :
    (fileOf puts).length = dataEnd puts + 8 * puts.length := by
  unfold fileOf
  rw [List.length_append, List.length_append, length_header, length_tableBytesOf,
    sum_lengths_bucketsOf]
  unfold dataEnd
  omega

theorem dataBytes_append (l1 l2 : List (Bytes × Bytes)) :
    dataBytes (l1 ++ l2) = dataBytes l1 ++ dataBytes l2 := by
  unfold dataBytes
  rw [List.map_append, List.flatten_append]

theorem dataBytes_cons (kv : Bytes × Bytes) (l : List (Bytes × Bytes)) :
    dataBytes (kv :: l) = encRecord kv ++ dataBytes l := rfl

theorem mem_entriesFrom {e : entry} (puts : List (Bytes × Bytes)) :
    ∀ off, e ∈ entriesFrom off puts →
      ∃ l1 kv l2, puts = l1 ++ kv :: l2 ∧
        e = ⟨cdbHash kv.1, (off + (dataBytes l1).length) % u32Mod⟩ := by
  induction puts with
  | nil => intro off h; simp [entriesFrom] at h
  | cons kv rest ih =>
      intro off h
      rw [entriesFrom] at h
      rcases List.mem_cons.mp h with h1 | h1
      · exact ⟨[], kv, rest, rfl, by simpa [dataBytes] using h1⟩
      · obtain ⟨l1, kv', l2, hsplit, he⟩ := ih (off + recSize kv) h1
        refine ⟨kv :: l1, kv', l2, by rw [hsplit, List.cons_append], ?_⟩
        rw [he]
        have : (dataBytes (kv :: l1)).length = recSize kv + (dataBytes l1).length := by
          rw [dataBytes_cons, List.length_append, length_encRecord]
        rw [this]
        have : off + recSize kv + (dataBytes l1).length =
            off + (recSize kv + (dataBytes l1).length) := by omega
        rw [← this]

theorem entriesFrom_mem_of_decomp (l1 : List (Bytes × Bytes)) :
    ∀ off (kv : Bytes × Bytes) (l2 : List (Bytes × Bytes)),
      (⟨cdbHash kv.1, (off + (dataBytes l1).length) % u32Mod⟩ : entry) ∈
        entriesFrom off (l1 ++ kv :: l2) := by
  induction l1 with
  | nil =>
      intro off kv l2
      rw [List.nil_append, entriesFrom]
      exact List.mem_cons.mpr (Or.inl (by simp [dataBytes]))
  | cons kv0 l1 ih =>
      intro off kv l2
      rw [List.cons_append, entriesFrom]
      apply List.mem_cons.mpr
      right
      have h := ih (off + recSize kv0) kv l2
      have harith : off + recSize kv0 + (dataBytes l1).length =
          off + (dataBytes (kv0 :: l1)).length := by
        rw [dataBytes_cons, List.length_append, length_encRecord]
        omega
      rwa [harith] at h

theorem bucketsOf_getD (puts : List (Bytes × Bytes)) (b : Nat) (hb : b < 256) :
    (bucketsOf puts).getD b [] =
      (entriesFrom indexSize puts).filter (fun e => e.hash % 256 == b) := by
  unfold bucketsOf
  rw [getD_range_map _ 256 b [] hb]

theorem mem_bucketsOf {e : entry} (puts : List (Bytes × Bytes)) (b : Nat) (hb : b < 256)
    (h : e ∈ (bucketsOf puts).getD b []) :
    e ∈ entriesFrom indexSize puts ∧ e.hash % 256 = b := by
  rw [bucketsOf_getD puts b hb] at h
  have := List.of_mem_filter h
  exact ⟨List.mem_of_mem_filter h, by simpa using this⟩

theorem mem_bucketsOf_of {e : entry} (puts : List (Bytes × Bytes))
    (h : e ∈ entriesFrom indexSize puts) :
    e ∈ (bucketsOf puts).getD (e.hash % 256) [] := by
  rw [bucketsOf_getD puts _ (Nat.mod_lt _ (by norm_num))]
  exact List.mem_filter.mpr ⟨h, by simp⟩

/-- Every record of a decomposition lies inside the data region. -/
theorem record_in_data (puts l1 : List (Bytes × Bytes)) (kv : Bytes × Bytes)
    (l2 : List (Bytes × Bytes)) (hsplit : puts = l1 ++ kv :: l2) :
    (dataBytes l1).length + recSize kv ≤ (dataBytes puts).length := by
  rw [hsplit, dataBytes_append, dataBytes_cons]
  simp [length_encRecord]

/-! ## Table region indexing -/

theorem prefixLen_zero (ls : List (List entry)) : prefixLen ls 0 = 0 := rfl

theorem prefixLen_cons_succ (l : List entry) (ls : List (List entry)) (b : Nat) :
    prefixLen (l :: ls) (b + 1) = l.length + prefixLen ls b := by
  simp [prefixLen]

theorem prefix_add_len_le (ls : List (List entry)) :
    ∀ b, b < ls.length →
      prefixLen ls b + (ls.getD b []).length ≤ (ls.map List.length).sum := by
  induction ls with
  | nil => intro b hb; simp at hb
  | cons l ls ih =>
      intro b hb
      cases b with
      | zero =>
          rw [prefixLen_zero]
          simp [List.getD_cons_zero]
      | succ b =>
          rw [prefixLen_cons_succ]
          have := ih b (by simpa using hb)
          simp only [List.getD_cons_succ, List.map_cons, List.sum_cons]
          omega

theorem flatten_getD (ls : List (List entry)) :
    ∀ b s (d : entry), b < ls.length → s < (ls.getD b []).length →
      (ls.flatten).getD (prefixLen ls b + s) d = (ls.getD b []).getD s d := by
  induction ls with
  | nil => intro b s d hb; simp at hb
  | cons l ls ih =>
      intro b s d hb hs
      cases b with
      | zero =>
          rw [prefixLen_zero, Nat.zero_add, List.flatten_cons]
          rw [List.getD_cons_zero] at hs
          rw [List.getD_cons_zero, List.getD_append _ _ _ s hs]
      | succ b =>
          rw [prefixLen_cons_succ, List.flatten_cons, List.getD_cons_succ]
          rw [List.getD_cons_succ] at hs
          rw [Nat.add_assoc, List.getD_append_right _ _ _ _ (by omega)]
          rw [Nat.add_sub_cancel_left]
          exact ih b s d (by simpa using hb) hs

theorem tableBytesOf_flat (ls : List (List entry)) :
    tableBytesOf ls = (((ls.flatten)).map entryBytes).flatten := by
  induction ls with
  | nil => rfl
  | cons l ls ih =>
      have h1 : tableBytesOf (l :: ls) = bucketBytes l ++ tableBytesOf ls := by
        simp [tableBytesOf]
      rw [h1, ih, List.flatten_cons, List.map_append, List.flatten_append]
      rfl

theorem length_entryBytes (e : entry) : (entryBytes e).length = 8 := rfl

theorem take4_writeTuple (x y : Nat) : (writeTuple x y).take 4 = u32le x := by
  have hw : writeTuple x y = u32le x ++ u32le y := rfl
  rw [hw]
  simpa [length_u32le] using List.take_left (u32le x) (u32le y)

theorem drop4_writeTuple (x y : Nat) : (writeTuple x y).drop 4 = u32le y := by
  have hw : writeTuple x y = u32le x ++ u32le y := rfl
  rw [hw]
  simpa [length_u32le] using List.drop_left (u32le x) (u32le y)

theorem drop_flatten_entries (l : List entry) :
    ∀ j, j < l.length →
      ((l.map entryBytes).flatten).drop (8 * j) =
        entryBytes (l.getD j ⟨0, 0⟩) ++ ((l.drop (j + 1)).map entryBytes).flatten := by
  induction l with
  | nil => intro j hj; simp at hj
  | cons e l ih =>
      intro j hj
      cases j with
      | zero => simp [List.getD_cons_zero]
      | succ j =>
          rw [List.map_cons, List.flatten_cons]
          have h8 : 8 * (j + 1) = (entryBytes e).length + 8 * j := by
            rw [length_entryBytes]; ring
          rw [h8, List.drop_append, List.getD_cons_succ, List.drop_succ_cons]
          exact ih j (by simpa using hj)

theorem readTuple_entries (l : List entry) (pre : Bytes) (j : Nat) (hj : j < l.length) :
    readTuple (pre ++ (l.map entryBytes).flatten) (pre.length + 8 * j) =
      some ((l.getD j ⟨0, 0⟩).hash % u32Mod, (l.getD j ⟨0, 0⟩).offset % u32Mod) := by
  unfold readTuple
  rw [show readAt (pre ++ (l.map entryBytes).flatten) (pre.length + 8 * j) 8 =
      readAt ((l.map entryBytes).flatten) (8 * j) 8 from readAt_append _ _ _ _]
  have hlen : ((l.map entryBytes).flatten).length = 8 * l.length := by
    have : (l.map entryBytes).flatten = bucketBytes l := rfl
    rw [this, length_bucketBytes]
  rw [readAt_of_le _ _ _ (by rw [hlen]; omega)]
  rw [drop_flatten_entries l j hj]
  have htake : (entryBytes (l.getD j ⟨0, 0⟩) ++ ((l.drop (j + 1)).map entryBytes).flatten).take 8 =
      entryBytes (l.getD j ⟨0, 0⟩) := by
    have h8 : (entryBytes (l.getD j ⟨0, 0⟩)).length = 8 := length_entryBytes _
    rw [← h8]
    exact List.take_left _ _
  rw [htake]
  have he : entryBytes (l.getD j ⟨0, 0⟩) =
      writeTuple (l.getD j ⟨0, 0⟩).hash (l.getD j ⟨0, 0⟩).offset := rfl
  rw [he]
  simp [take4_writeTuple, drop4_writeTuple, decodeU32_u32le]

theorem tablesOf_getD (ls : List (List entry)) :
    ∀ off b, b < ls.length →
      (tablesOf off ls).getD b ⟨0, 0⟩ =
        ⟨(off + 8 * prefixLen ls b) % u32Mod, ((ls.getD b []).length) % u32Mod⟩ := by
  induction ls with
  | nil => intro off b hb; simp at hb
  | cons l ls ih =>
      intro off b hb
      cases b with
      | zero =>
          rw [prefixLen_zero]
          show (⟨off % u32Mod, l.length % u32Mod⟩ : table) = _
          simp [List.getD_cons_zero]
      | succ b =>
          rw [prefixLen_cons_succ]
          show (tablesOf (off + 8 * l.length) ls).getD b ⟨0, 0⟩ = _
          rw [ih (off + 8 * l.length) b (by simpa using hb)]
          rw [List.getD_cons_succ]
          have : off + 8 * l.length + 8 * prefixLen ls b =
              off + 8 * (l.length + prefixLen ls b) := by ring
          rw [this]

theorem idxOf_getD (puts : List (Bytes × Bytes)) (b : Nat) (hb : b < 256) :
    (idxOf puts).getD b ⟨0, 0⟩ =
      ⟨(dataEnd puts + 8 * prefixLen (bucketsOf puts) b) % u32Mod,
        ((bucketsOf puts).getD b []).length % u32Mod⟩ := by
  unfold idxOf
  exact tablesOf_getD (bucketsOf puts) (dataEnd puts) b (by rw [length_bucketsOf]; exact hb)

/-! ## Reads against the finalized file -/

theorem maxUint32_lt_u32Mod : maxUint32 < u32Mod := by norm_num [maxUint32, u32Mod]

theorem prefixLen_le_sum (puts : List (Bytes × Bytes)) (b : Nat) (hb : b < 256) :
    prefixLen (bucketsOf puts) b + ((bucketsOf puts).getD b []).length ≤ puts.length := by
  have h := prefix_add_len_le (bucketsOf puts) b (by rw [length_bucketsOf]; exact hb)
  rwa [sum_lengths_bucketsOf] at h

/-- The table selected by `Get` for bucket `b`, with the `uint32` casts
removed: its offset is the absolute position of the bucket's table and its
length the exact entry count. -/
theorem table_fields (puts : List (Bytes × Bytes)) (hOK : PutsOK puts) (b : Nat)
    (hb : b < 256) :
    (idxOf puts).getD b ⟨0, 0⟩ =
      ⟨dataEnd puts + 8 * prefixLen (bucketsOf puts) b,
        ((bucketsOf puts).getD b []).length⟩ := by
  rw [idxOf_getD puts b hb]
  have hle := prefixLen_le_sum puts b hb
  have hcap := hOK.2
  have hmax := maxUint32_lt_u32Mod
  have h1 : dataEnd puts + 8 * prefixLen (bucketsOf puts) b < u32Mod := by omega
  have h2 : ((bucketsOf puts).getD b []).length < u32Mod := by
    unfold dataEnd at hcap
    unfold indexSize at hcap
    omega
  rw [Nat.mod_eq_of_lt h1, Nat.mod_eq_of_lt h2]

/-- Every valid slot of a bucket's table corresponds to one `Put`: the
stored pair is the put key's full hash and its record's absolute offset, and
the eight bytes at the slot's position decode to exactly that pair. -/
theorem slot_read_spec (puts : List (Bytes × Bytes)) (hOK : PutsOK puts) (b s : Nat)
    (hb : b < 256) (hs : s < ((bucketsOf puts).getD b []).length) :
    ∃ l1 kv l2, puts = l1 ++ kv :: l2 ∧ cdbHash kv.1 % 256 = b ∧
      ((bucketsOf puts).getD b []).getD s ⟨0, 0⟩ =
        ⟨cdbHash kv.1, indexSize + (dataBytes l1).length⟩ ∧
      readTuple (fileOf puts) (dataEnd puts + 8 * prefixLen (bucketsOf puts) b + 8 * s) =
        some (cdbHash kv.1, indexSize + (dataBytes l1).length) := by
  have hmem : ((bucketsOf puts).getD b []).getD s ⟨0, 0⟩ ∈ (bucketsOf puts).getD b [] :=
    getD_lt_mem _ s _ hs
  obtain ⟨hmemEF, hbq⟩ := mem_bucketsOf puts b hb hmem
  obtain ⟨l1, kv, l2, hsplit, he⟩ := mem_entriesFrom puts indexSize hmemEF
  have hkv : kv ∈ puts := by rw [hsplit]; exact List.mem_append_right _ (List.mem_cons_self _ _)
  have hhash : cdbHash kv.1 < u32Mod := cdbHash_lt kv.1 (hOK.1 kv hkv)
  have hrec : (dataBytes l1).length + recSize kv ≤ (dataBytes puts).length :=
    record_in_data puts l1 kv l2 hsplit
  have hcap := hOK.2
  have hmax := maxUint32_lt_u32Mod
  have hoffRange : indexSize + (dataBytes l1).length < u32Mod := by
    unfold dataEnd at hcap
    unfold recSize at hrec
    omega
  have he' : ((bucketsOf puts).getD b []).getD s ⟨0, 0⟩ =
      ⟨cdbHash kv.1, indexSize + (dataBytes l1).length⟩ := by
    rw [he]
    congr 1
    exact Nat.mod_eq_of_lt hoffRange
  have hb' : cdbHash kv.1 % 256 = b := by
    rw [he'] at hbq
    exact hbq
  refine ⟨l1, kv, l2, hsplit, hb', he', ?_⟩
  have hfile : fileOf puts =
      (encodeIndex (idxOf puts) ++ dataBytes puts) ++
        (((bucketsOf puts).flatten).map entryBytes).flatten := by
    unfold fileOf
    rw [tableBytesOf_flat]
  have hpre : (encodeIndex (idxOf puts) ++ dataBytes puts).length = dataEnd puts := by
    rw [List.length_append, length_header]
    rfl
  have hj : prefixLen (bucketsOf puts) b + s < ((bucketsOf puts).flatten).length := by
    rw [List.length_flatten, sum_lengths_bucketsOf]
    have := prefixLen_le_sum puts b hb
    omega
  have haddr : dataEnd puts + 8 * prefixLen (bucketsOf puts) b + 8 * s =
      (encodeIndex (idxOf puts) ++ dataBytes puts).length +
        8 * (prefixLen (bucketsOf puts) b + s) := by
    rw [hpre]; ring
  rw [hfile, haddr,
    readTuple_entries ((bucketsOf puts).flatten) _ _ hj,
    flatten_getD (bucketsOf puts) b s ⟨0, 0⟩ (by rw [length_bucketsOf]; exact hb) hs, he']
  have hmodh : cdbHash kv.1 % u32Mod = cdbHash kv.1 := Nat.mod_eq_of_lt hhash
  have hmodo : (indexSize + (dataBytes l1).length) % u32Mod =
      indexSize + (dataBytes l1).length := Nat.mod_eq_of_lt hoffRange
  rw [show ((⟨cdbHash kv.1, indexSize + (dataBytes l1).length⟩ : entry).hash) = cdbHash kv.1
      from rfl,
    show ((⟨cdbHash kv.1, indexSize + (dataBytes l1).length⟩ : entry).offset) =
      indexSize + (dataBytes l1).length from rfl,
    hmodh, hmodo]

/-- Reading the record of a decomposition `puts = l1 ++ kv :: l2` through
`getValueAt` matches exactly when the queried key equals the stored key. -/
theorem getValueAt_record (puts : List (Bytes × Bytes)) (hOK : PutsOK puts)
    (l1 : List (Bytes × Bytes)) (kv : Bytes × Bytes) (l2 : List (Bytes × Bytes))
    (hsplit : puts = l1 ++ kv :: l2) (q : Bytes) :
    getValueAt (fileOf puts) (indexSize + (dataBytes l1).length) q =
      some (if q = kv.1 then some kv.2 else none) := by
  have hrec : (dataBytes l1).length + recSize kv ≤ (dataBytes puts).length :=
    record_in_data puts l1 kv l2 hsplit
  have hcap := hOK.2
  have hmax := maxUint32_lt_u32Mod
  have hkl : kv.1.length < u32Mod := by
    unfold dataEnd at hcap
    unfold recSize at hrec
    omega
  have hvl : kv.2.length < u32Mod := by
    unfold dataEnd at hcap
    unfold recSize at hrec
    omega
  have hklvl : kv.1.length + kv.2.length < u32Mod := by
    unfold dataEnd at hcap
    unfold recSize at hrec
    omega
  have hoff8 : indexSize + (dataBytes l1).length + 8 < u32Mod := by
    unfold dataEnd at hcap
    unfold recSize at hrec
    omega
  -- restructure the file around the record
  have hfile : fileOf puts =
      (encodeIndex (idxOf puts) ++ dataBytes l1) ++
        (writeTuple kv.1.length kv.2.length ++
          ((kv.1 ++ kv.2) ++ (dataBytes l2 ++ tableBytesOf (bucketsOf puts)))) := by
    unfold fileOf
    rw [hsplit, dataBytes_append, dataBytes_cons]
    have : encRecord kv = writeTuple kv.1.length kv.2.length ++ (kv.1 ++ kv.2) := by
      unfold encRecord
      rw [List.append_assoc]
    rw [this]
    simp [List.append_assoc]
  have hpre : (encodeIndex (idxOf puts) ++ dataBytes l1).length =
      indexSize + (dataBytes l1).length := by
    rw [List.length_append, length_header]
  unfold getValueAt
  rw [show indexSize + (dataBytes l1).length =
      (encodeIndex (idxOf puts) ++ dataBytes l1).length from hpre.symm, hfile,
    readTuple_at]
  dsimp only
  rw [Nat.mod_eq_of_lt hkl, Nat.mod_eq_of_lt hvl]
  by_cases hlen : kv.1.length = q.length
  · rw [if_neg (fun hc => hc hlen)]
    -- read key ++ value
    have hpre2 : ((encodeIndex (idxOf puts) ++ dataBytes l1) ++
        writeTuple kv.1.length kv.2.length).length =
        (encodeIndex (idxOf puts) ++ dataBytes l1).length + 8 := by
      rw [List.length_append, length_writeTuple]
    have hfile2 : (encodeIndex (idxOf puts) ++ dataBytes l1) ++
        (writeTuple kv.1.length kv.2.length ++
          ((kv.1 ++ kv.2) ++ (dataBytes l2 ++ tableBytesOf (bucketsOf puts)))) =
        ((encodeIndex (idxOf puts) ++ dataBytes l1) ++ writeTuple kv.1.length kv.2.length) ++
          ((kv.1 ++ kv.2) ++ (dataBytes l2 ++ tableBytesOf (bucketsOf puts))) := by
      rw [← List.append_assoc]
    have hmod1 : ((encodeIndex (idxOf puts) ++ dataBytes l1).length + 8) % u32Mod =
        (encodeIndex (idxOf puts) ++ dataBytes l1).length + 8 := by
      rw [hpre]
      exact Nat.mod_eq_of_lt hoff8
    have hmod2 : (kv.1.length + kv.2.length) % u32Mod = kv.1.length + kv.2.length :=
      Nat.mod_eq_of_lt hklvl
    rw [hmod1, hmod2, hfile2,
      show ((encodeIndex (idxOf puts) ++ dataBytes l1).length + 8) =
        (((encodeIndex (idxOf puts) ++ dataBytes l1)) ++
          writeTuple kv.1.length kv.2.length).length from hpre2.symm,
      readAt_append0]
    rw [readAt_block (kv.1 ++ kv.2) _ (kv.1.length + kv.2.length) (by simp)]
    dsimp only
    have htake : (kv.1 ++ kv.2).take kv.1.length = kv.1 := List.take_left _ _
    have hdrop : (kv.1 ++ kv.2).drop kv.1.length = kv.2 := List.drop_left _ _
    rw [htake, hdrop]
    by_cases heq : kv.1 = q
    · rw [if_neg (fun hc => hc heq), if_pos heq.symm]
    · rw [if_pos heq, if_neg (fun h => heq h.symm)]
  · rw [if_pos (fun h => hlen h), if_neg (fun h => hlen (by rw [h]))]

/-! ## Modular arithmetic of the probe cycle -/

theorem mod_cycle_ne (len st i : Nat) (hst : st < len) (hi1 : 1 ≤ i) (hi2 : i < len) :
    (st + i) % len ≠ st := by
  intro hcontra
  by_cases h : st + i < len
  · rw [Nat.mod_eq_of_lt h] at hcontra
    omega
  · have h2 : st + i - len < len := by omega
    rw [Nat.mod_eq_sub_mod (by omega), Nat.mod_eq_of_lt h2] at hcontra
    omega

theorem mod_dist_hit (len st j0 : Nat) (hst : st < len) (hj0 : j0 < len) :
    ∃ d, d < len ∧ (st + d) % len = j0 := by
  by_cases h : st ≤ j0
  · exact ⟨j0 - st, by omega, by rw [Nat.mod_eq_of_lt (by omega)]; omega⟩
  · refine ⟨len - st + j0, by omega, ?_⟩
    have h2 : st + (len - st + j0) = len + j0 := by omega
    rw [h2, Nat.add_mod_left, Nat.mod_eq_of_lt hj0]

/-! ## Probe lemmas -/

theorem probe_addr (puts : List (Bytes × Bytes)) (hOK : PutsOK puts) (b slot : Nat)
    (hb : b < 256) (hslot : slot < ((bucketsOf puts).getD b []).length) :
    (dataEnd puts + 8 * prefixLen (bucketsOf puts) b + 8 * slot) % u32Mod =
      dataEnd puts + 8 * prefixLen (bucketsOf puts) b + 8 * slot := by
  have hle := prefixLen_le_sum puts b hb
  have hcap := hOK.2
  have hmax := maxUint32_lt_u32Mod
  exact Nat.mod_eq_of_lt (by omega)

/-- The probe returns "not found" on every slot of a valid bucket when the
queried key was never inserted, and likewise — without ever comparing key
bytes — when the probed hash is 0, since a stored hash can only be 0 for an
inserted key hashing to 0 and the zero-sentinel branch fires first. -/
theorem probe_none (puts : List (Bytes × Bytes)) (hOK : PutsOK puts) (q : Bytes)
    (h st : Nat) (hcase : (∀ kv ∈ puts, kv.1 ≠ q) ∨ h = 0) (b : Nat) (hb : b < 256) :
    ∀ fuel slot, slot < ((bucketsOf puts).getD b []).length →
      probe (fileOf puts) q
        ⟨dataEnd puts + 8 * prefixLen (bucketsOf puts) b,
          ((bucketsOf puts).getD b []).length⟩ h st slot fuel = some none := by
  intro fuel
  induction fuel with
  | zero => intro slot _; rfl
  | succ fuel ih =>
      intro slot hslot
      obtain ⟨l1, kv, l2, hsplit, hbk, he, hread⟩ := slot_read_spec puts hOK b slot hb hslot
      simp only [probe]
      rw [show ((⟨dataEnd puts + 8 * prefixLen (bucketsOf puts) b,
          ((bucketsOf puts).getD b []).length⟩ : table).offset + 8 * slot) =
          dataEnd puts + 8 * prefixLen (bucketsOf puts) b + 8 * slot from rfl,
        probe_addr puts hOK b slot hb hslot, hread]
      dsimp only
      by_cases hz : cdbHash kv.1 = 0
      · rw [if_pos hz]
      · rw [if_neg hz]
        have hlen0 : 0 < ((bucketsOf puts).getD b []).length := by omega
        have hcont : (if ((slot + 1) % ((bucketsOf puts).getD b []).length) = st then
            (some none : Option (Option Bytes))
          else probe (fileOf puts) q
            ⟨dataEnd puts + 8 * prefixLen (bucketsOf puts) b,
              ((bucketsOf puts).getD b []).length⟩ h st
            ((slot + 1) % ((bucketsOf puts).getD b []).length) fuel) = some none := by
          by_cases hc : ((slot + 1) % ((bucketsOf puts).getD b []).length) = st
          · rw [if_pos hc]
          · rw [if_neg hc]
            exact ih _ (Nat.mod_lt _ hlen0)
        by_cases hh : cdbHash kv.1 = h
        · rw [if_pos hh]
          have habs : ∀ kv' ∈ puts, kv'.1 ≠ q := by
            rcases hcase with hc | hc
            · exact hc
            · exact absurd (hh.trans hc) hz
          rw [getValueAt_record puts hOK l1 kv l2 hsplit q]
          have hkv : kv ∈ puts := by
            rw [hsplit]
            exact List.mem_append_right _ (List.mem_cons_self _ _)
          rw [if_neg (fun hqe => habs kv hkv hqe.symm)]
          exact hcont
        · rw [if_neg hh]
          exact hcont

/-- Record offsets are position-determined: two decompositions of the same
put list whose prefixes serialize to the same number of bytes are the same
decomposition. -/
theorem decomp_offset_inj (l1 : List (Bytes × Bytes)) :
    ∀ (puts l1' : List (Bytes × Bytes)) (kv kv' : Bytes × Bytes)
      (l2 l2' : List (Bytes × Bytes)),
      puts = l1 ++ kv :: l2 → puts = l1' ++ kv' :: l2' →
      (dataBytes l1).length = (dataBytes l1').length → l1 = l1' ∧ kv = kv' := by
  induction l1 with
  | nil =>
      intro puts l1' kv kv' l2 l2' h1 h2 heq
      cases l1' with
      | nil =>
          rw [List.nil_append] at h1 h2
          have := h1.symm.trans h2
          exact ⟨rfl, (List.cons.injEq _ _ _ _).mp this |>.1⟩
      | cons kv0 t =>
          exfalso
          have hlen : (dataBytes (kv0 :: t)).length = recSize kv0 + (dataBytes t).length := by
            rw [dataBytes_cons, List.length_append, length_encRecord]
          have h8 : 8 ≤ recSize kv0 := by unfold recSize; omega
          have h0 : (dataBytes ([] : List (Bytes × Bytes))).length = 0 := rfl
          omega
  | cons kv0 t ih =>
      intro puts l1' kv kv' l2 l2' h1 h2 heq
      cases l1' with
      | nil =>
          exfalso
          have hlen : (dataBytes (kv0 :: t)).length = recSize kv0 + (dataBytes t).length := by
            rw [dataBytes_cons, List.length_append, length_encRecord]
          have h8 : 8 ≤ recSize kv0 := by unfold recSize; omega
          have h0 : (dataBytes ([] : List (Bytes × Bytes))).length = 0 := rfl
          omega
      | cons kv0' t' =>
          rw [List.cons_append] at h1 h2
          have hheads := h1.symm.trans h2
          have hkv0 : kv0 = kv0' := ((List.cons.injEq _ _ _ _).mp hheads).1
          have htails : t ++ kv :: l2 = t' ++ kv' :: l2' :=
            ((List.cons.injEq _ _ _ _).mp hheads).2
          have hlen : (dataBytes (kv0 :: t)).length = recSize kv0 + (dataBytes t).length := by
            rw [dataBytes_cons, List.length_append, length_encRecord]
          have hlen' : (dataBytes (kv0' :: t')).length =
              recSize kv0' + (dataBytes t').length := by
            rw [dataBytes_cons, List.length_append, length_encRecord]
          have heq' : (dataBytes t).length = (dataBytes t').length := by
            have hrs : recSize kv0 = recSize kv0' := by rw [hkv0]
            omega
          obtain ⟨ht, hkv⟩ := ih (t ++ kv :: l2) t' kv kv' l2 l2' rfl htails heq'
          exact ⟨by rw [hkv0, ht], hkv⟩

/-- With pairwise distinct keys, an entry whose stored key equals `q` can
only be the record of `q` itself. -/
theorem nodup_key_value (puts l1 : List (Bytes × Bytes)) (kv : Bytes × Bytes)
    (l2 : List (Bytes × Bytes)) (hnodup : (puts.map Prod.fst).Nodup)
    (h1 : puts = l1 ++ kv :: l2) (q v : Bytes) (hmem : (q, v) ∈ puts)
    (hk : kv.1 = q) : kv.2 = v := by
  rw [h1] at hnodup hmem
  rw [List.map_append, List.map_cons] at hnodup
  have hmid := List.nodup_middle.mp hnodup
  have hnotin : kv.1 ∉ (l1.map Prod.fst ++ l2.map Prod.fst) :=
    (List.nodup_cons.mp hmid).1
  rcases List.mem_append.mp hmem with hq | hq
  · exfalso
    apply hnotin
    apply List.mem_append_left
    rw [hk]
    exact List.mem_map.mpr ⟨(q, v), hq, rfl⟩
  · rcases List.mem_cons.mp hq with hq | hq
    · rw [← hq]
    · exfalso
      apply hnotin
      apply List.mem_append_right
      rw [hk]
      exact List.mem_map.mpr ⟨(q, v), hq, rfl⟩

/-- When no stored hash is zero and the keys are distinct, the probe finds
the record of an inserted key: starting anywhere on the arc that still
contains the key's slot before cycling back to the start slot, it returns
the stored value. -/
theorem probe_finds (puts : List (Bytes × Bytes)) (hOK : PutsOK puts)
    (hnodup : (puts.map Prod.fst).Nodup)
    (hnz : ∀ kv ∈ puts, cdbHash kv.1 ≠ 0)
    (q v : Bytes) (l1 l2 : List (Bytes × Bytes)) (hsplit : puts = l1 ++ (q, v) :: l2)
    (st j0 : Nat)
    (hj0 : j0 < ((bucketsOf puts).getD (cdbHash q % 256) []).length)
    (hj0e : ((bucketsOf puts).getD (cdbHash q % 256) []).getD j0 ⟨0, 0⟩ =
      ⟨cdbHash q, indexSize + (dataBytes l1).length⟩) :
    ∀ fuel slot d, slot < ((bucketsOf puts).getD (cdbHash q % 256) []).length →
      d < fuel → (slot + d) % ((bucketsOf puts).getD (cdbHash q % 256) []).length = j0 →
      (∀ i, 1 ≤ i → i ≤ d →
        (slot + i) % ((bucketsOf puts).getD (cdbHash q % 256) []).length ≠ st) →
      probe (fileOf puts) q
        ⟨dataEnd puts + 8 * prefixLen (bucketsOf puts) (cdbHash q % 256),
          ((bucketsOf puts).getD (cdbHash q % 256) []).length⟩ (cdbHash q) st slot fuel =
        some (some v) := by
  have hb : cdbHash q % 256 < 256 := Nat.mod_lt _ (by norm_num)
  have hqmem : (q, v) ∈ puts := by
    rw [hsplit]
    exact List.mem_append_right _ (List.mem_cons_self _ _)
  intro fuel
  induction fuel with
  | zero => intro slot d _ hd; omega
  | succ fuel ih =>
      intro slot d hslot hd hhit harc
      obtain ⟨l1', kv', l2', hsplit', hbk', he', hread'⟩ :=
        slot_read_spec puts hOK (cdbHash q % 256) slot hb hslot
      have hkv'mem : kv' ∈ puts := by
        rw [hsplit']
        exact List.mem_append_right _ (List.mem_cons_self _ _)
      simp only [probe]
      rw [show ((⟨dataEnd puts + 8 * prefixLen (bucketsOf puts) (cdbHash q % 256),
          ((bucketsOf puts).getD (cdbHash q % 256) []).length⟩ : table).offset + 8 * slot) =
          dataEnd puts + 8 * prefixLen (bucketsOf puts) (cdbHash q % 256) + 8 * slot from rfl,
        probe_addr puts hOK (cdbHash q % 256) slot hb hslot, hread']
      dsimp only
      rw [if_neg (hnz kv' hkv'mem)]
      by_cases hkey : kv'.1 = q
      · have hh : cdbHash kv'.1 = cdbHash q := by rw [hkey]
        rw [if_pos hh, getValueAt_record puts hOK l1' kv' l2' hsplit' q, if_pos hkey.symm]
        have hv : kv'.2 = v :=
          nodup_key_value puts l1' kv' l2' hnodup hsplit' q v hqmem hkey
        rw [hv]
      · -- this slot is not the record of `q`; it must be passed over
        have hd0 : 1 ≤ d := by
          rcases Nat.eq_zero_or_pos d with h0 | h0
          · exfalso
            subst h0
            have hsj : slot = j0 := by
              rwa [Nat.add_zero, Nat.mod_eq_of_lt hslot] at hhit
            rw [hsj] at he'
            have hcomb := hj0e.symm.trans he'
            have hoff : indexSize + (dataBytes l1).length =
                indexSize + (dataBytes l1').length := congrArg entry.offset hcomb
            have heq : (dataBytes l1).length = (dataBytes l1').length := by omega
            obtain ⟨hl, hkv⟩ :=
              decomp_offset_inj l1 puts l1' (q, v) kv' l2 l2' hsplit hsplit' heq
            exact hkey (by rw [← hkv])
          · exact h0
        have hlen0 : 0 < ((bucketsOf puts).getD (cdbHash q % 256) []).length := by omega
        have hcont : (if ((slot + 1) % ((bucketsOf puts).getD (cdbHash q % 256) []).length) = st
            then (some none : Option (Option Bytes))
            else probe (fileOf puts) q
              ⟨dataEnd puts + 8 * prefixLen (bucketsOf puts) (cdbHash q % 256),
                ((bucketsOf puts).getD (cdbHash q % 256) []).length⟩ (cdbHash q) st
              ((slot + 1) % ((bucketsOf puts).getD (cdbHash q % 256) []).length) fuel) =
            some (some v) := by
          rw [if_neg (harc 1 le_rfl hd0)]
          apply ih _ (d - 1) (Nat.mod_lt _ hlen0) (by omega)
          · rw [Nat.mod_add_mod]
            rw [show slot + 1 + (d - 1) = slot + d by omega]
            exact hhit
          · intro i hi1 hi2
            rw [Nat.mod_add_mod, show slot + 1 + i = slot + (1 + i) by omega]
            exact harc (1 + i) (by omega) (by omega)
        by_cases hh : cdbHash kv'.1 = cdbHash q
        · rw [if_pos hh, getValueAt_record puts hOK l1' kv' l2' hsplit' q,
            if_neg (fun hqe => hkey hqe.symm)]
          exact hcont
        · rw [if_neg hh]
          exact hcont

/-! ## `Get` on a frozen store -/

theorem Get_storeOf_none (puts : List (Bytes × Bytes)) (hOK : PutsOK puts) (q : Bytes)
    (hcase : (∀ kv ∈ puts, kv.1 ≠ q) ∨ cdbHash q = 0) :
    (storeOf puts).Get q = some none := by
  unfold CDB.Get
  have hb : cdbHash q % 256 < 256 := Nat.mod_lt _ (by norm_num)
  dsimp only [storeOf]
  rw [table_fields puts hOK _ hb]
  dsimp only
  by_cases hlen : ((bucketsOf puts).getD (cdbHash q % 256) []).length = 0
  · rw [if_pos hlen]
  · rw [if_neg hlen]
    exact probe_none puts hOK q (cdbHash q)
      ((cdbHash q >>> 8) % ((bucketsOf puts).getD (cdbHash q % 256) []).length)
      hcase (cdbHash q % 256) hb _ _ (Nat.mod_lt _ (by omega))

theorem Get_storeOf_found (puts : List (Bytes × Bytes)) (hOK : PutsOK puts)
    (hnodup : (puts.map Prod.fst).Nodup)
    (hnz : ∀ kv ∈ puts, cdbHash kv.1 ≠ 0)
    (q v : Bytes) (hmem : (q, v) ∈ puts) :
    (storeOf puts).Get q = some (some v) := by
  obtain ⟨l1, l2, hsplit⟩ := List.append_of_mem hmem
  have hb : cdbHash q % 256 < 256 := Nat.mod_lt _ (by norm_num)
  -- the entry of `q` sits in its bucket
  have hrec : (dataBytes l1).length + recSize (q, v) ≤ (dataBytes puts).length :=
    record_in_data puts l1 (q, v) l2 hsplit
  have hcap := hOK.2
  have hmax := maxUint32_lt_u32Mod
  have hoffRange : indexSize + (dataBytes l1).length < u32Mod := by
    unfold dataEnd at hcap
    unfold recSize at hrec
    omega
  have hefm : (⟨cdbHash q, (indexSize + (dataBytes l1).length) % u32Mod⟩ : entry) ∈
      entriesFrom indexSize puts := by
    rw [hsplit]
    exact entriesFrom_mem_of_decomp l1 indexSize (q, v) l2
  rw [Nat.mod_eq_of_lt hoffRange] at hefm
  have hbkt : (⟨cdbHash q, indexSize + (dataBytes l1).length⟩ : entry) ∈
      (bucketsOf puts).getD (cdbHash q % 256) [] := by
    simpa using mem_bucketsOf_of puts hefm
  obtain ⟨j0, hj0, hget⟩ := List.mem_iff_getElem.mp hbkt
  have hj0e : ((bucketsOf puts).getD (cdbHash q % 256) []).getD j0 ⟨0, 0⟩ =
      ⟨cdbHash q, indexSize + (dataBytes l1).length⟩ := by
    rw [List.getD_eq_getElem _ _ hj0]
    exact hget
  have hlen0 : 0 < ((bucketsOf puts).getD (cdbHash q % 256) []).length := by omega
  unfold CDB.Get
  dsimp only [storeOf]
  rw [table_fields puts hOK _ hb]
  dsimp only
  rw [if_neg (by omega)]
  set st := (cdbHash q >>> 8) % ((bucketsOf puts).getD (cdbHash q % 256) []).length with hstdef
  have hst : st < ((bucketsOf puts).getD (cdbHash q % 256) []).length := Nat.mod_lt _ hlen0
  obtain ⟨d, hdlen, hdhit⟩ := mod_dist_hit _ st j0 hst hj0
  exact probe_finds puts hOK hnodup hnz q v l1 l2 hsplit st j0 hj0 hj0e _ st d hst
    (by omega) hdhit
    (fun i hi1 hi2 => mod_cycle_ne _ st i hst hi1 (by omega))

/-! ## Equivalence with the spec's sentinel-free probe -/

theorem probe_eq_specProbe (puts : List (Bytes × Bytes)) (hOK : PutsOK puts)
    (hnz : ∀ kv ∈ puts, cdbHash kv.1 ≠ 0) (q : Bytes) (h st : Nat) (b : Nat)
    (hb : b < 256) :
    ∀ fuel slot, slot < ((bucketsOf puts).getD b []).length →
      probe (fileOf puts) q
        ⟨dataEnd puts + 8 * prefixLen (bucketsOf puts) b,
          ((bucketsOf puts).getD b []).length⟩ h st slot fuel =
      specProbe (fileOf puts) q
        ⟨dataEnd puts + 8 * prefixLen (bucketsOf puts) b,
          ((bucketsOf puts).getD b []).length⟩ h st slot fuel := by
  intro fuel
  induction fuel with
  | zero => intro slot _; rfl
  | succ fuel ih =>
      intro slot hslot
      obtain ⟨l1, kv, l2, hsplit, hbk, he, hread⟩ := slot_read_spec puts hOK b slot hb hslot
      have hkvmem : kv ∈ puts := by
        rw [hsplit]
        exact List.mem_append_right _ (List.mem_cons_self _ _)
      simp only [probe, specProbe]
      rw [show ((⟨dataEnd puts + 8 * prefixLen (bucketsOf puts) b,
          ((bucketsOf puts).getD b []).length⟩ : table).offset + 8 * slot) =
          dataEnd puts + 8 * prefixLen (bucketsOf puts) b + 8 * slot from rfl,
        probe_addr puts hOK b slot hb hslot, hread]
      dsimp only
      rw [if_neg (hnz kv hkvmem)]
      have hlen0 : 0 < ((bucketsOf puts).getD b []).length := by omega
      by_cases hh : cdbHash kv.1 = h
      · rw [if_pos hh, if_pos hh, getValueAt_record puts hOK l1 kv l2 hsplit q]
        by_cases hqe : q = kv.1
        · rw [if_pos hqe]
        · rw [if_neg hqe]
          dsimp only
          by_cases hc : ((slot + 1) % ((bucketsOf puts).getD b []).length) = st
          · rw [if_pos hc, if_pos hc]
          · rw [if_neg hc, if_neg hc]
            exact ih _ (Nat.mod_lt _ hlen0)
      · rw [if_neg hh, if_neg hh]
        by_cases hc : ((slot + 1) % ((bucketsOf puts).getD b []).length) = st
        · rw [if_pos hc, if_pos hc]
        · rw [if_neg hc, if_neg hc]
          exact ih _ (Nat.mod_lt _ hlen0)

theorem Get_eq_specGet (puts : List (Bytes × Bytes)) (hOK : PutsOK puts)
    (hnz : ∀ kv ∈ puts, cdbHash kv.1 ≠ 0) (q : Bytes) :
    (storeOf puts).Get q = (storeOf puts).specGet q := by
  unfold CDB.Get CDB.specGet
  have hb : cdbHash q % 256 < 256 := Nat.mod_lt _ (by norm_num)
  dsimp only [storeOf]
  rw [table_fields puts hOK _ hb]
  dsimp only
  by_cases hlen : ((bucketsOf puts).getD (cdbHash q % 256) []).length = 0
  · rw [if_pos hlen, if_pos hlen]
  · rw [if_neg hlen, if_neg hlen]
    exact probe_eq_specProbe puts hOK hnz q (cdbHash q) _ (cdbHash q % 256) hb _ _
      (Nat.mod_lt _ (by omega))

/-! ## The `Each` scan -/

theorem eachLoop_records {ε : Type} (visit : Bytes → Bytes → Except ε Unit) :
    ∀ (recs : List (Bytes × Bytes)) (pre post : Bytes),
      (∀ kv ∈ recs, kv.1.length < u32Mod ∧ kv.2.length < u32Mod) →
      eachLoop (pre ++ (dataBytes recs ++ post)) visit
        (pre.length + (dataBytes recs).length) pre.length = visitFold visit recs := by
  intro recs
  induction recs with
  | nil =>
      intro pre post _
      rw [eachLoop, dif_neg (by simp [dataBytes])]
      rfl
  | cons kv rest ih =>
      intro pre post hsz
      have hkl : kv.1.length < u32Mod := (hsz kv (List.mem_cons_self _ _)).1
      have hvl : kv.2.length < u32Mod := (hsz kv (List.mem_cons_self _ _)).2
      have hencLen : (encRecord kv).length = recSize kv := length_encRecord kv
      have hDlen : (dataBytes (kv :: rest)).length =
          recSize kv + (dataBytes rest).length := by
        rw [dataBytes_cons, List.length_append, hencLen]
      have hrs : 8 ≤ recSize kv := by unfold recSize; omega
      rw [eachLoop, dif_pos (by omega)]
      have hfile : pre ++ (dataBytes (kv :: rest) ++ post) =
          pre ++ (writeTuple kv.1.length kv.2.length ++
            ((kv.1 ++ kv.2) ++ (dataBytes rest ++ post))) := by
        rw [dataBytes_cons]
        unfold encRecord
        simp [List.append_assoc]
      rw [hfile, readTuple_at]
      dsimp only
      rw [Nat.mod_eq_of_lt hkl, Nat.mod_eq_of_lt hvl]
      have hpre8 : pre.length + 8 = (pre ++ writeTuple kv.1.length kv.2.length).length := by
        rw [List.length_append, length_writeTuple]
      have hshape : pre ++ (writeTuple kv.1.length kv.2.length ++
          ((kv.1 ++ kv.2) ++ (dataBytes rest ++ post))) =
          (pre ++ writeTuple kv.1.length kv.2.length) ++
            ((kv.1 ++ kv.2) ++ (dataBytes rest ++ post)) := by
        rw [← List.append_assoc]
      rw [hpre8, hshape, readAt_append0,
        readAt_block (kv.1 ++ kv.2) _ (kv.1.length + kv.2.length) (by simp)]
      dsimp only
      rw [List.take_left, List.drop_left]
      have hvf : visitFold visit (kv :: rest) =
          (match visit kv.1 kv.2 with
            | .error e => .error (.visit e)
            | .ok _ => visitFold visit rest) := rfl
      rw [hvf]
      cases hv : visit kv.1 kv.2 with
      | error e => rfl
      | ok u =>
          dsimp only
          have hfile2 : (pre ++ writeTuple kv.1.length kv.2.length) ++
              ((kv.1 ++ kv.2) ++ (dataBytes rest ++ post)) =
              (pre ++ encRecord kv) ++ (dataBytes rest ++ post) := by
            unfold encRecord
            simp [List.append_assoc]
          have hend : pre.length + (dataBytes (kv :: rest)).length =
              (pre ++ encRecord kv).length + (dataBytes rest).length := by
            rw [List.length_append, hencLen, hDlen]
            omega
          have hpos : pre.length + (8 + kv.1.length + kv.2.length) =
              (pre ++ encRecord kv).length := by
            rw [List.length_append, hencLen]
            unfold recSize
            omega
          rw [hfile2, hend, hpos]
          exact ih (pre ++ encRecord kv) post
            (fun kv' hkv' => hsz kv' (List.mem_cons_of_mem _ hkv'))

theorem Each_storeOf {ε : Type} (puts : List (Bytes × Bytes)) (hOK : PutsOK puts)
    (visit : Bytes → Bytes → Except ε Unit) :
    (storeOf puts).Each visit = visitFold visit puts := by
  unfold CDB.Each
  have hb0 : (0 : Nat) < 256 := by norm_num
  dsimp only [storeOf]
  rw [table_fields puts hOK 0 hb0]
  have hsz : ∀ kv ∈ puts, kv.1.length < u32Mod ∧ kv.2.length < u32Mod := by
    intro kv hkv
    obtain ⟨l1, l2, hsplit⟩ := List.append_of_mem hkv
    have hrec := record_in_data puts l1 kv l2 hsplit
    have hcap := hOK.2
    have hmax := maxUint32_lt_u32Mod
    unfold dataEnd at hcap
    unfold recSize at hrec
    constructor <;> omega
  have h := eachLoop_records visit puts (encodeIndex (idxOf puts))
    (tableBytesOf (bucketsOf puts)) hsz
  rw [length_header] at h
  have hoff : (⟨dataEnd puts + 8 * prefixLen (bucketsOf puts) 0,
      ((bucketsOf puts).getD 0 []).length⟩ : table).offset = dataEnd puts := by
    show dataEnd puts + 8 * prefixLen (bucketsOf puts) 0 = dataEnd puts
    rw [prefixLen_zero]
    omega
  rw [hoff]
  have hfile : fileOf puts =
      encodeIndex (idxOf puts) ++ (dataBytes puts ++ tableBytesOf (bucketsOf puts)) := by
    unfold fileOf
    rw [List.append_assoc]
  rw [hfile]
  unfold dataEnd
  exact h

/-! ## Capacity and finishing-operation lemmas -/

theorem finalize_error_iff (w : Writer) (hoff : w.bufferedOffset ≤ maxUint32) :
    w.finalize = .error .tooMuchData ↔
      w.bufferedOffset + 8 * totalEntries w > maxUint32 := by
  constructor
  · intro h
    by_contra hc
    have hok := writeTables_ok w.entries w.bufferedOffset
      (by unfold totalEntries at hc; omega)
    unfold Writer.finalize at h
    rw [hok] at h
    simp at h
  · intro h
    unfold Writer.finalize
    rw [writeTables_err w.entries w.bufferedOffset hoff
      (by unfold totalEntries at h; omega)]

theorem Put_result (w : Writer) (k v : Bytes) (hb : w.bufOk = true) :
    ((w.Put k v).2 = .errTooMuchData ↔
        w.bufferedOffset + (8 + k.length + v.length) > maxUint32) ∧
      ((w.Put k v).2 = .errTooMuchData ∨ (w.Put k v).2 = .ok) := by
  unfold Writer.Put
  dsimp only
  rw [if_pos hb]
  by_cases hcond : w.bufferedOffset + (8 + k.length + v.length) > maxUint32
  · rw [if_pos hcond]
    exact ⟨⟨fun _ => hcond, fun _ => rfl⟩, Or.inl rfl⟩
  · rw [if_neg hcond]
    exact ⟨⟨fun h => PutResult.noConfusion h, fun h => absurd h hcond⟩, Or.inr rfl⟩

theorem Put_entry (w : Writer) (k v : Bytes) (hlen : w.entries.length = 256)
    (hoff : w.bufferedOffset ≤ maxUint32) :
    (w.Put k v).1.entries.getD (cdbHash k % 256) [] =
      w.entries.getD (cdbHash k % 256) [] ++ [⟨cdbHash k, w.bufferedOffset⟩] := by
  have hmod : w.bufferedOffset % u32Mod = w.bufferedOffset :=
    Nat.mod_eq_of_lt (by have := maxUint32_lt_u32Mod; omega)
  have ht : cdbHash k % 256 < 256 := Nat.mod_lt _ (by norm_num)
  unfold Writer.Put
  dsimp only
  by_cases hb : w.bufOk = true
  · rw [if_pos hb]
    by_cases hcond : w.bufferedOffset + (8 + k.length + v.length) > maxUint32
    · rw [if_pos hcond]
      dsimp only
      rw [getD_set_self _ _ _ _ (by rw [hlen]; exact ht), hmod]
    · rw [if_neg hcond]
      dsimp only
      rw [getD_set_self _ _ _ _ (by rw [hlen]; exact ht), hmod]
  · rw [if_neg hb]
    dsimp only
    rw [getD_set_self _ _ _ _ (by rw [hlen]; exact ht), hmod]

theorem finStep_of_finalized (w : Writer) (h : w.finalized = true) (op : FinOp) :
    finStep w op = w := by
  cases op
  · unfold finStep Writer.Close
    rw [if_pos h]
  · unfold finStep Writer.Freeze
    rw [if_pos h]

theorem foldl_finStep_finalized (ops : List FinOp) :
    ∀ w : Writer, w.finalized = true → ops.foldl finStep w = w := by
  induction ops with
  | nil => intro w _; rfl
  | cons op ops ih =>
      intro w h
      rw [List.foldl_cons, finStep_of_finalized w h op]
      exact ih w h

theorem finStep_runs_body (w : Writer) (op : FinOp) (hw : w.finalized = false) :
    (finStep w op).finalized = true ∧
      (finStep w op).file =
        (match w.finalize with | .ok (_, out) => out | .error _ => w.file) := by
  have hnf : ¬(w.finalized = true) := by rw [hw]; simp
  cases op
  · unfold finStep Writer.Close
    rw [if_neg hnf]
    cases hf : w.finalize with
    | error er => exact ⟨rfl, rfl⟩
    | ok p =>
        cases p with
        | mk idx out => exact ⟨rfl, rfl⟩
  · unfold finStep Writer.Freeze
    rw [if_neg hnf]
    cases hf : w.finalize with
    | error er => exact ⟨rfl, rfl⟩
    | ok p =>
        cases p with
        | mk idx out => exact ⟨rfl, rfl⟩

theorem Freeze_of_finalized (w : Writer) (h : w.finalized = true) :
    w.Freeze = (w, .ok ⟨w.file, zeroIndex⟩) := by
  unfold Writer.Freeze
  rw [if_pos h]

theorem Freeze_first (w : Writer) (hw : w.finalized = false) (idx : List table)
    (out : Bytes) (hf : w.finalize = .ok (idx, out)) : (w.Freeze).2 = .ok ⟨out, idx⟩ := by
  have hnf : ¬(w.finalized = true) := by rw [hw]; simp
  unfold Writer.Freeze
  rw [if_neg hnf, hf]

theorem Get_empty_bucket (f : Bytes) (idx : List table) (q : Bytes)
    (h : (idx.getD (cdbHash q % 256) ⟨0, 0⟩).length = 0) :
    CDB.Get ⟨f, idx⟩ q = some none := by
  unfold CDB.Get
  dsimp only
  rw [if_pos h]

theorem map_Get_none (puts : List (Bytes × Bytes)) (hOK : PutsOK puts) (q : Bytes)
    (hcase : (∀ kv ∈ puts, kv.1 ≠ q) ∨ cdbHash q = 0) :
    (freezeStore puts).map (fun cdb => cdb.Get q) = .ok (some none) := by
  rw [freezeStore_ok puts hOK]
  show Except.ok ((storeOf puts).Get q) = _
  rw [Get_storeOf_none puts hOK q hcase]

theorem map_Get_found (puts : List (Bytes × Bytes)) (hOK : PutsOK puts)
    (hnodup : (puts.map Prod.fst).Nodup) (hnz : ∀ kv ∈ puts, cdbHash kv.1 ≠ 0)
    (q v : Bytes) (hmem : (q, v) ∈ puts) :
    (freezeStore puts).map (fun cdb => cdb.Get q) = .ok (some (some v)) := by
  rw [freezeStore_ok puts hOK]
  show Except.ok ((storeOf puts).Get q) = _
  rw [Get_storeOf_found puts hOK hnodup hnz q v hmem]

instance decidablePutsOK (puts : List (Bytes × Bytes)) : Decidable (PutsOK puts) := by
  unfold PutsOK
  infer_instance

/-! ## The `Open` / `New` path: decoding the written header -/

theorem take4_block (a b : Nat) (rest : Bytes) :
    ((writeTuple a b) ++ rest).take 4 = u32le a := by
  rw [List.take_append_of_le_length (by simp [length_writeTuple])]
  exact take4_writeTuple a b

theorem drop4_take4_block (a b : Nat) (rest : Bytes) :
    (((writeTuple a b) ++ rest).drop 4).take 4 = u32le b := by
  rw [List.drop_append_of_le_length (by simp [length_writeTuple]), drop4_writeTuple]
  rw [List.take_append_of_le_length (by simp [length_u32le])]
  simp [u32le]

theorem drop_flatten_tables (l : List table) :
    ∀ j, j < l.length →
      ((l.map (fun t => writeTuple t.offset t.length)).flatten).drop (8 * j) =
        writeTuple (l.getD j ⟨0, 0⟩).offset (l.getD j ⟨0, 0⟩).length ++
          ((l.drop (j + 1)).map (fun t => writeTuple t.offset t.length)).flatten := by
  induction l with
  | nil => intro j hj; simp at hj
  | cons t l ih =>
      intro j hj
      cases j with
      | zero => simp [List.getD_cons_zero]
      | succ j =>
          rw [List.map_cons, List.flatten_cons]
          have h8 : 8 * (j + 1) = (writeTuple t.offset t.length).length + 8 * j := by
            rw [length_writeTuple]; ring
          rw [h8, List.drop_append, List.getD_cons_succ, List.drop_succ_cons]
          exact ih j (by simpa using hj)

theorem mem_tablesOf_lt (ls : List (List entry)) :
    ∀ off t, t ∈ tablesOf off ls → t.offset < u32Mod ∧ t.length < u32Mod := by
  induction ls with
  | nil => intro off t ht; simp [tablesOf] at ht
  | cons es ls ih =>
      intro off t ht
      rw [tablesOf] at ht
      rcases List.mem_cons.mp ht with h | h
      · subst h
        exact ⟨Nat.mod_lt _ (by norm_num [u32Mod]), Nat.mod_lt _ (by norm_num [u32Mod])⟩
      · exact ih (off + 8 * es.length) t h

theorem decodeIndex_encodeIndex (ts : List table) (hlen : ts.length = 256)
    (hmod : ∀ t ∈ ts, t.offset < u32Mod ∧ t.length < u32Mod) :
    decodeIndex (encodeIndex ts) = ts := by
  apply List.ext_getElem
  · rw [hlen]
    simp [decodeIndex]
  · intro i h1 h2
    have hi : i < 256 := by
      simpa [decodeIndex] using h1
    have hi' : i < ts.length := by omega
    rw [← List.getD_eq_getElem _ ⟨0, 0⟩ h1, ← List.getD_eq_getElem _ ⟨0, 0⟩ h2]
    unfold decodeIndex
    rw [getD_range_map _ 256 i (⟨0, 0⟩ : table) hi]
    have hdrop : (encodeIndex ts).drop (i * 8) =
        writeTuple (ts.getD i ⟨0, 0⟩).offset (ts.getD i ⟨0, 0⟩).length ++
          ((ts.drop (i + 1)).map (fun t => writeTuple t.offset t.length)).flatten := by
      unfold encodeIndex
      rw [Nat.mul_comm i 8]
      exact drop_flatten_tables ts i hi'
    have hdrop4 : (encodeIndex ts).drop (i * 8 + 4) =
        ((encodeIndex ts).drop (i * 8)).drop 4 := by
      rw [List.drop_drop]
    rw [hdrop4, hdrop, take4_block, drop4_take4_block, decodeU32_u32le, decodeU32_u32le]
    obtain ⟨ho, hl⟩ := hmod (ts.getD i ⟨0, 0⟩) (getD_lt_mem ts i ⟨0, 0⟩ hi')
    rw [Nat.mod_eq_of_lt ho, Nat.mod_eq_of_lt hl]

theorem New_fileOf (puts : List (Bytes × Bytes)) :
    New (fileOf puts) = some (storeOf puts) := by
  unfold New
  have hfile : fileOf puts = encodeIndex (idxOf puts) ++
      (dataBytes puts ++ tableBytesOf (bucketsOf puts)) := by
    unfold fileOf
    rw [List.append_assoc]
  rw [hfile, readAt_block _ _ indexSize (length_header puts)]
  have hmod : ∀ t ∈ idxOf puts, t.offset < u32Mod ∧ t.length < u32Mod := by
    intro t ht
    exact mem_tablesOf_lt (bucketsOf puts) (dataEnd puts) t ht
  rw [Option.map_some', decodeIndex_encodeIndex (idxOf puts) (length_idxOf puts) hmod,
    ← hfile]
  rfl

theorem idxOf_min_offset (puts : List (Bytes × Bytes)) (hOK : PutsOK puts) (b : Nat)
    (hb : b < 256) :
    ((idxOf puts).getD 0 ⟨0, 0⟩).offset ≤ ((idxOf puts).getD b ⟨0, 0⟩).offset := by
  rw [table_fields puts hOK 0 (by norm_num), table_fields puts hOK b hb]
  show dataEnd puts + 8 * prefixLen (bucketsOf puts) 0 ≤
    dataEnd puts + 8 * prefixLen (bucketsOf puts) b
  rw [prefixLen_zero]
  omega

/-! ## Claims -/

/-- Claim C8: the hash is the pure fold `v = ((v << 5) + v) XOR b` from
`v = 5381` with 32-bit wraparound; `hash("foo bar baz") = 776976811`,
`hash("The quick brown fox jumped over the lazy dog") = 3538394712`, and
chunk-wise incremental updates compose to the whole-input hash. -/
theorem claim_C8 :
    cdbHash ("foo bar baz".toList.map Char.toNat) = 776976811 ∧
    cdbHash ("The quick brown fox jumped over the lazy dog".toList.map Char.toNat) =
      3538394712 ∧
    ∀ (a b : Bytes) (v : Nat),
      CDBHashSum32Update (a ++ b) v = CDBHashSum32Update b (CDBHashSum32Update a v) :=
  ⟨by decide, by decide, fun a b v => List.foldl_append hashStep v a b⟩

/-- Claim C1 (failing input): the round-trip property fails on the code for
a key hashing to 0.  After `Put(zKey, [1,2])` and `Freeze`, `Get(zKey)`
returns "not found" instead of `[1,2]`, because the probe treats the stored
slot hash 0 as an empty-slot sentinel; re-opening the written file through
`New` (the `Close`-then-`Open` path) yields the same store and the same
miss. -/
theorem claim_C1 :
    cdbHash zKey = 0 ∧
    (freezeStore [(zKey, [1, 2])]).map (fun cdb => cdb.Get zKey) = .ok (some none) ∧
    New (fileOf [(zKey, [1, 2])]) = some (storeOf [(zKey, [1, 2])]) ∧
    (storeOf [(zKey, [1, 2])]).Get zKey = some none :=
  ⟨by decide, map_Get_none [(zKey, [1, 2])] (by decide) zKey (Or.inr (by decide)),
    New_fileOf [(zKey, [1, 2])],
    Get_storeOf_none [(zKey, [1, 2])] (by decide) zKey (Or.inr (by decide))⟩

/-- Claim C2 (counterexample): in the store built from the single put
`(zKey, [9])`, the queried key's bucket is non-empty and its only slot holds
the pair (hash 0, offset 2048) whose record matches `zKey` exactly — yet
`Get zKey` returns "not found".  The probe therefore terminated "not found"
without a full cycle over a bucket with no matching entry: the stored slot
hash 0 terminated it early. -/
theorem claim_C2_counterexample :
    freezeStore [(zKey, [9])] = .ok (storeOf [(zKey, [9])]) ∧
    (storeOf [(zKey, [9])]).index.getD 0 ⟨0, 0⟩ = ⟨2062, 1⟩ ∧
    readTuple (storeOf [(zKey, [9])]).file 2062 = some (0, 2048) ∧
    getValueAt (storeOf [(zKey, [9])]).file 2048 zKey = some (some [9]) ∧
    (storeOf [(zKey, [9])]).Get zKey = some none := by
  have hOK : PutsOK [(zKey, [9])] := by decide
  refine ⟨freezeStore_ok _ hOK, ?_, ?_, ?_, ?_⟩
  · show (idxOf [(zKey, [9])]).getD 0 ⟨0, 0⟩ = _
    rw [table_fields _ hOK 0 (by norm_num)]
    decide
  · have hTB : tableBytesOf (bucketsOf [(zKey, [9])]) = writeTuple 0 2048 := by decide
    have hfile : (storeOf [(zKey, [9])]).file =
        (encodeIndex (idxOf [(zKey, [9])]) ++ dataBytes [(zKey, [9])]) ++
          (writeTuple 0 2048 ++ []) := by
      show fileOf [(zKey, [9])] = _
      unfold fileOf
      rw [hTB, List.append_nil]
    have haddr : (encodeIndex (idxOf [(zKey, [9])]) ++ dataBytes [(zKey, [9])]).length =
        2062 := by
      rw [List.length_append, length_header]
      decide
    have h := readTuple_at (encodeIndex (idxOf [(zKey, [9])]) ++ dataBytes [(zKey, [9])])
      0 2048 []
    rw [haddr] at h
    rw [hfile]
    have hfix : readTuple ((encodeIndex (idxOf [(zKey, [9])]) ++ dataBytes [(zKey, [9])]) ++
        (writeTuple 0 2048 ++ [])) 2062 = some (0 % u32Mod, 2048 % u32Mod) := h
    rw [hfix]
    decide
  · have h := getValueAt_record [(zKey, [9])] hOK [] (zKey, [9]) [] rfl zKey
    rw [if_pos rfl] at h
    have haddr : indexSize + (dataBytes ([] : List (Bytes × Bytes))).length = 2048 := by
      decide
    rw [haddr] at h
    exact h
  · exact Get_storeOf_none _ hOK zKey (Or.inr (by decide))

/-- Claim C2 (amended): the probe returns "not found" either after a full
cycle back to the start slot, or immediately upon reading a slot whose
stored hash is 0; when no inserted key hashes to 0 — so no stored slot hash
is 0 — the code's `Get` coincides with the spec's sentinel-free probe, whose
only "not found" exit is the full cycle. -/
theorem claim_C2 (puts : List (Bytes × Bytes)) (hOK : PutsOK puts)
    (hnz : ∀ kv ∈ puts, cdbHash kv.1 ≠ 0) (q : Bytes) :
    (freezeStore puts).map (fun cdb => cdb.Get q) =
      (freezeStore puts).map (fun cdb => cdb.specGet q) := by
  rw [freezeStore_ok puts hOK]
  show Except.ok ((storeOf puts).Get q) = Except.ok ((storeOf puts).specGet q)
  rw [Get_eq_specGet puts hOK hnz q]

theorem claim_C2_witness :
    PutsOK [([97], [98]), ([100, 101], [102])] ∧
    (∀ kv ∈ [([97], [98]), ([100, 101], [102])], cdbHash (Prod.fst kv) ≠ 0) ∧
    (freezeStore [([97], [98]), ([100, 101], [102])]).map (fun cdb => cdb.Get [97]) =
      (freezeStore [([97], [98]), ([100, 101], [102])]).map (fun cdb => cdb.specGet [97]) :=
  ⟨by decide, by decide, claim_C2 _ (by decide) (by decide) [97]⟩

/-- Claim C3: `Each` on a store built from a list of puts invokes the
visitor exactly once per inserted pair, with the pairs in `Put` order,
stopping at and surfacing the first visitor error — i.e. it equals the
reference fold `visitFold` over the put list. -/
theorem claim_C3 (puts : List (Bytes × Bytes)) (hOK : PutsOK puts) {ε : Type}
    (visit : Bytes → Bytes → Except ε Unit) :
    (freezeStore puts).map (fun cdb => cdb.Each visit) = .ok (visitFold visit puts) := by
  rw [freezeStore_ok puts hOK]
  show Except.ok ((storeOf puts).Each visit) = _
  rw [Each_storeOf puts hOK visit]

theorem claim_C3_witness :
    PutsOK [([97], [98]), ([100, 101], [102])] ∧
    (freezeStore [([97], [98]), ([100, 101], [102])]).map
        (fun cdb => cdb.Each (fun k _ => if k.length == 2 then Except.error (7 : Nat)
          else Except.ok ())) =
      .ok (.error (.visit 7)) := by
  refine ⟨by decide, ?_⟩
  rw [claim_C3 [([97], [98]), ([100, 101], [102])] (by decide)
    (fun k _ => if k.length == 2 then Except.error (7 : Nat) else Except.ok ())]
  rfl

/-- Claim C4: with a live buffered writer, `Put` returns `ErrTooMuchData`
exactly when the tracked offset exceeds the 32-bit maximum after appending
the record (and otherwise returns ok); the recorded entry keeps the exact,
untruncated offset; and `finalize` returns `ErrTooMuchData` exactly when the
offset exceeds the maximum after appending its table entries. -/
theorem claim_C4 (w : Writer) (k v : Bytes) (hb : w.bufOk = true)
    (hlen : w.entries.length = 256) (hoff : w.bufferedOffset ≤ maxUint32) :
    ((w.Put k v).2 = .errTooMuchData ↔
        w.bufferedOffset + (8 + k.length + v.length) > maxUint32) ∧
      ((w.Put k v).2 = .errTooMuchData ∨ (w.Put k v).2 = .ok) ∧
      ((w.Put k v).1.entries.getD (cdbHash k % 256) [] =
        w.entries.getD (cdbHash k % 256) [] ++ [⟨cdbHash k, w.bufferedOffset⟩]) ∧
      (w.finalize = .error .tooMuchData ↔
        w.bufferedOffset + 8 * totalEntries w > maxUint32) :=
  ⟨(Put_result w k v hb).1, (Put_result w k v hb).2,
    Put_entry w k v hlen hoff, finalize_error_iff w hoff⟩

theorem claim_C4_witness :
    ({ NewWriter with bufferedOffset := 4294967290 } : Writer).bufOk = true ∧
    ({ NewWriter with bufferedOffset := 4294967290 } : Writer).entries.length = 256 ∧
    ({ NewWriter with bufferedOffset := 4294967290 } : Writer).bufferedOffset ≤ maxUint32 ∧
    (({ NewWriter with bufferedOffset := 4294967290 } : Writer).Put [1] [2]).2 =
      .errTooMuchData :=
  ⟨rfl, by decide, by decide,
    ((claim_C4 { NewWriter with bufferedOffset := 4294967290 } [1] [2] rfl (by decide)
      (by decide)).1).mpr (by decide)⟩

/-- Claim C5 (counterexample): after `Put([97],[98])`, the first `Freeze`
returns a working store, but a second `Freeze` (the finalize-once guard
having been consumed) returns a handle whose index is the zero value, so
`Get [97]` on it returns "not found" while the first handle returns `[98]`
— the claim's "the resulting store still satisfies the round-trip property"
fails for the second finishing call. -/
theorem claim_C5_counterexample :
    ((buildWriter [([97], [98])]).Freeze).2 = .ok (storeOf [([97], [98])]) ∧
    ((((buildWriter [([97], [98])]).Freeze).1).Freeze).2 =
      .ok ⟨fileOf [([97], [98])], zeroIndex⟩ ∧
    (storeOf [([97], [98])]).Get [97] = some (some [98]) ∧
    CDB.Get ⟨fileOf [([97], [98])], zeroIndex⟩ [97] = some none := by
  have hOK : PutsOK [([97], [98])] := by decide
  refine ⟨?_, ?_, ?_, ?_⟩
  · rw [buildWriter_Freeze _ hOK]
  · rw [buildWriter_Freeze _ hOK,
      Freeze_of_finalized _ rfl]
  · exact Get_storeOf_found _ hOK (by decide) (by decide) [97] [98] (by decide)
  · exact Get_empty_bucket _ _ _ (by decide)

/-- Claim C5 (amended): the finalize body runs exactly once — any finishing
operations after the first leave the writer state, and hence the on-disk
bytes, tables and header, unchanged; the first finishing call runs the body
and stores its output; the first `Freeze` returns a handle carrying the real
index; but a `Freeze` issued after finalize has already run returns a handle
with the zero index. -/
theorem claim_C5 (w : Writer) (hw : w.finalized = false) (op : FinOp) (ops : List FinOp) :
    (ops.foldl finStep (finStep w op) = finStep w op) ∧
    (finStep w op).finalized = true ∧
    (finStep w op).file =
      (match w.finalize with | .ok (_, out) => out | .error _ => w.file) ∧
    (∀ idx out, w.finalize = .ok (idx, out) → (w.Freeze).2 = .ok ⟨out, idx⟩) ∧
    (∀ w' : Writer, w'.finalized = true → (w'.Freeze).2 = .ok ⟨w'.file, zeroIndex⟩) := by
  obtain ⟨h1, h2⟩ := finStep_runs_body w op hw
  refine ⟨foldl_finStep_finalized ops _ h1, h1, h2, ?_, ?_⟩
  · intro idx out hf
    exact Freeze_first w hw idx out hf
  · intro w' h'
    rw [Freeze_of_finalized w' h']

theorem claim_C5_witness :
    NewWriter.finalized = false ∧
    ([FinOp.close, FinOp.freeze].foldl finStep (finStep NewWriter .freeze) =
      finStep NewWriter .freeze) ∧
    (finStep NewWriter .freeze).finalized = true :=
  ⟨rfl, (claim_C5 NewWriter rfl .freeze [FinOp.close, FinOp.freeze]).1,
    (claim_C5 NewWriter rfl .freeze [FinOp.close, FinOp.freeze]).2.1⟩

/-- Claim C6 (failing input): after `Put([97],[98])` and `Close`, a further
`Put([99],[100])` is not rejected with an error: the writer's buffered
writer has been cleared, so the call faults (nil dereference) — and it has
already mutated the in-memory entry table before faulting, though no record
bytes are appended. -/
theorem claim_C6 :
    ((((buildWriter [([97], [98])]).Close).1).Put [99] [100]).2 = .crash ∧
    ((((buildWriter [([97], [98])]).Close).1).Put [99] [100]).1.data =
      (((buildWriter [([97], [98])]).Close).1).data ∧
    ((((buildWriter [([97], [98])]).Close).1).Put [99] [100]).1.entries ≠
      (((buildWriter [([97], [98])]).Close).1).entries := by
  have hOK : PutsOK [([97], [98])] := by decide
  rw [buildWriter_Close _ hOK]
  have hlen : (buildWriter [([97], [98])]).entries.length = 256 := by
    rw [(buildWriter_spec [([97], [98])]).2.2.2.2.2, length_bucketsOf]
  have ht : cdbHash [99] % 256 < 256 := Nat.mod_lt _ (by norm_num)
  unfold Writer.Put
  dsimp only
  rw [if_neg (by simp)]
  refine ⟨rfl, rfl, ?_⟩
  intro heq
  have hgd := congrArg (fun l => l.getD (cdbHash [99] % 256) []) heq
  dsimp only at hgd
  rw [getD_set_self _ _ _ _ (by rw [hlen]; exact ht)] at hgd
  have hlenabs := congrArg List.length hgd
  rw [List.length_append] at hlenabs
  simp at hlenabs

/-- Claim C7: `Get` for a key that was never inserted returns the successful
"not found" result, not an error, on any store built by puts and finalize;
and a bucket of length 0 yields "not found" immediately, whatever the file
contents. -/
theorem claim_C7 (puts : List (Bytes × Bytes)) (q : Bytes) (hOK : PutsOK puts)
    (habs : ∀ kv ∈ puts, Prod.fst kv ≠ q) :
    ((freezeStore puts).map (fun cdb => cdb.Get q) = .ok (some none)) ∧
    (∀ (f : Bytes) (idx : List table),
      (idx.getD (cdbHash q % 256) ⟨0, 0⟩).length = 0 → CDB.Get ⟨f, idx⟩ q = some none) :=
  ⟨map_Get_none puts hOK q (Or.inl habs), fun f idx h => Get_empty_bucket f idx q h⟩

theorem claim_C7_witness :
    PutsOK [([97], [98]), ([100, 101], [102])] ∧
    (∀ kv ∈ [([97], [98]), ([100, 101], [102])], Prod.fst kv ≠ [5]) ∧
    ((freezeStore [([97], [98]), ([100, 101], [102])]).map (fun cdb => cdb.Get [5]) =
      .ok (some none)) ∧
    CDB.Get ⟨[], zeroIndex⟩ [5] = some none :=
  ⟨by decide, by decide,
    (claim_C7 [([97], [98]), ([100, 101], [102])] [5] (by decide) (by decide)).1,
    (claim_C7 [([97], [98]), ([100, 101], [102])] [5] (by decide) (by decide)).2 []
      zeroIndex (by decide)⟩

/-- Claim C9: on every finalized store, bucket 0's stored offset equals the
end of the data region — 2048 plus the total length of all records — even
when bucket 0 is empty, and it is the minimum offset over all 256 buckets. -/
theorem claim_C9 (puts : List (Bytes × Bytes)) (hOK : PutsOK puts) (cdb : CDB)
    (hc : freezeStore puts = .ok cdb) :
    (cdb.index.getD 0 ⟨0, 0⟩).offset = indexSize + (dataBytes puts).length ∧
    ∀ b, b < 256 →
      (cdb.index.getD 0 ⟨0, 0⟩).offset ≤ (cdb.index.getD b ⟨0, 0⟩).offset := by
  rw [freezeStore_ok puts hOK] at hc
  have hcdb : storeOf puts = cdb := by
    injection hc
  subst hcdb
  constructor
  · show ((idxOf puts).getD 0 ⟨0, 0⟩).offset = _
    rw [table_fields puts hOK 0 (by norm_num)]
    show dataEnd puts + 8 * prefixLen (bucketsOf puts) 0 = _
    rw [prefixLen_zero]
    unfold dataEnd
    omega
  · intro b hb
    exact idxOf_min_offset puts hOK b hb

theorem claim_C9_witness :
    PutsOK [([97], [98]), ([100, 101], [102])] ∧
    freezeStore [([97], [98]), ([100, 101], [102])] =
      .ok (storeOf [([97], [98]), ([100, 101], [102])]) ∧
    ((storeOf [([97], [98]), ([100, 101], [102])]).index.getD 0 ⟨0, 0⟩).offset = 2069 :=
  ⟨by decide, freezeStore_ok _ (by decide),
    ((claim_C9 [([97], [98]), ([100, 101], [102])] (by decide) _
      (freezeStore_ok _ (by decide))).1).trans (by decide)⟩

/-- Claim C10: on every finalized store, `Get` of a key whose 32-bit hash is
0 returns "not found" even if that key was inserted: the probe treats a
stored slot hash of 0 as an empty-slot sentinel and stops before comparing
key bytes. -/
theorem claim_C10 (puts : List (Bytes × Bytes)) (q : Bytes) (hOK : PutsOK puts)
    (hq : cdbHash q = 0) :
    (freezeStore puts).map (fun cdb => cdb.Get q) = .ok (some none) :=
  map_Get_none puts hOK q (Or.inr hq)

theorem claim_C10_witness :
    PutsOK [(zKey, [1])] ∧ cdbHash zKey = 0 ∧
    (freezeStore [(zKey, [1])]).map (fun cdb => cdb.Get zKey) = .ok (some none) :=
  ⟨by decide, by decide, claim_C10 [(zKey, [1])] zKey (by decide) (by decide)⟩

end Cdb
